import Mathlib

/-!
Verification of the sshttp session-multiplexer core.

This file gives a shallow embedding of the session multiplexer of the
sshttp server (Go) and proves the specified properties about it:

* the scrollback `RingBuffer` (`server/internal/pty/session.go` and the
  session code in `server/internal/mds/mds.go`, identical in both),
* the serialized scrollback/broadcast/registration trace of a session,
* the client set, insertion order and writer election
  (`RegisterClient`, `SetClientActivity`, `RemoveClient`, `electWriter`),
* the tmux-style terminal sizing (`recalculateSize`),
* the file-transfer state machine and frame dispatch of the WebSocket
  shell handler (`handleShellStream`, `validateFilename`),
* session id generation (`generateID`).

Bytes are modelled as `Nat`; Go `uint16`/`uint32` values are modelled as
`Nat` with explicit bounds or reductions modulo `2 ^ 32` where the Go code
can overflow.
-/

namespace Sshttp

/-! ## RingBuffer

Embedding of the `RingBuffer` type of `server/internal/pty/session.go`
(the copy in `server/internal/mds/mds.go` is byte-identical).  The Go
struct holds `data []byte`, `size`, `start`, `len`; the mutex only
serializes access and has no functional content.
-/

structure RingBuffer where
  data : List Nat
  size : Nat
  start : Nat
  len : Nat
  deriving Repr, DecidableEq

/-- `NewRingBuffer(capacity)`: `make([]byte, capacity)` is zero-filled. -/
def NewRingBuffer (capacity : Nat) : RingBuffer :=
  { data := List.replicate capacity 0, size := capacity, start := 0, len := 0 }

/-- One iteration of the byte-appending loop in `RingBuffer.Write`:
`pos := (start+len) % size`; bump `len` while the buffer is not full,
otherwise advance `start`; then store the byte at `pos`. -/
def pushByte (rb : RingBuffer) (b : Nat) : RingBuffer :=
  let pos := (rb.start + rb.len) % rb.size
  if rb.len < rb.size then
    { rb with data := rb.data.set pos b, len := rb.len + 1 }
  else
    { rb with data := rb.data.set pos b, start := (rb.start + 1) % rb.size }

/-- `RingBuffer.Write(p)` with its full Go result `(n, err)` plus the
post-state.  `n := len(p)`; empty input returns immediately; an input of
at least `size` bytes keeps only its last `size` bytes
(`copy(rb.data, p[n-rb.size:])`, `start = 0`, `len = size`); otherwise the
bytes are appended one by one. -/
def rbWriteFull (rb : RingBuffer) (p : List Nat) : Nat × Option String × RingBuffer :=
  let n := p.length
  if n = 0 then (0, none, rb)
  else if rb.size ≤ n then
    (n, none, { rb with data := p.drop (n - rb.size), start := 0, len := rb.size })
  else
    (n, none, p.foldl pushByte rb)

/-- The state part of `RingBuffer.Write`. -/
def rbWrite (rb : RingBuffer) (p : List Nat) : RingBuffer :=
  (rbWriteFull rb p).2.2

/-- `RingBuffer.Bytes()`: a copy of the contents in logical order.  The Go
code returns `nil` if `len == 0`, the contiguous slice
`data[start : start+len]` if it does not wrap, and otherwise
`data[start:] ++ data[:len-(size-start)]`. -/
def rbBytes (rb : RingBuffer) : List Nat :=
  if rb.len = 0 then []
  else if rb.start + rb.len ≤ rb.size then
    (rb.data.drop rb.start).take rb.len
  else
    rb.data.drop rb.start ++ rb.data.take (rb.len - (rb.size - rb.start))

/-- The last `min C (length l)` elements of `l`. -/
def lastN (C : Nat) (l : List Nat) : List Nat := l.drop (l.length - C)

/-- Structural invariant of a ring buffer: the backing slice has length
`size`, `len` never exceeds `size`, and `start` is a valid index (or `0`
for a capacity-0 buffer). -/
def rbWF (rb : RingBuffer) : Prop :=
  rb.data.length = rb.size ∧ rb.len ≤ rb.size ∧ (rb.start < rb.size ∨ rb.start = 0)

theorem rbWF_new (C : Nat) : rbWF (NewRingBuffer C) := by
  refine ⟨?_, ?_, Or.inr rfl⟩ <;> simp [NewRingBuffer]

theorem rbBytes_new (C : Nat) : rbBytes (NewRingBuffer C) = [] := by
  simp [NewRingBuffer, rbBytes]

/-- Under the invariant, `Bytes` is `take len` of the rotation of the
backing slice at `start`. -/
theorem rbBytes_eq (rb : RingBuffer) (h : rbWF rb) :
    rbBytes rb = ((rb.data.drop rb.start) ++ (rb.data.take rb.start)).take rb.len := by
  obtain ⟨hd, hl, hs⟩ := h
  have hstart : rb.start ≤ rb.size := by omega
  unfold rbBytes
  by_cases h0 : rb.len = 0
  · simp [h0]
  · simp only [if_neg h0]
    by_cases hw : rb.start + rb.len ≤ rb.size
    · rw [if_pos hw, List.take_append_of_le_length]
      simp only [List.length_drop, hd]
      omega
    · rw [if_neg hw, List.take_append_eq_append_take]
      have h1 : (rb.data.drop rb.start).take rb.len = rb.data.drop rb.start := by
        apply List.take_of_length_le
        simp only [List.length_drop, hd]
        omega
      have h2 : (rb.data.take rb.start).take (rb.len - (rb.data.drop rb.start).length)
          = rb.data.take (rb.len - (rb.size - rb.start)) := by
        rw [List.take_take]
        congr 1
        simp only [List.length_drop, hd]
        omega
      rw [h1, h2]

theorem rbBytes_length (rb : RingBuffer) (h : rbWF rb) :
    (rbBytes rb).length = rb.len := by
  obtain ⟨hd, hl, hs⟩ := h
  rw [rbBytes_eq rb ⟨hd, hl, hs⟩]
  simp only [List.length_take, List.length_append, List.length_drop, List.length_take, hd]
  omega

theorem rbWF_pushByte (rb : RingBuffer) (b : Nat) (h : rbWF rb) (hz : 0 < rb.size) :
    rbWF (pushByte rb b) := by
  obtain ⟨hd, hl, hs⟩ := h
  unfold pushByte
  by_cases hlt : rb.len < rb.size
  · simp only [if_pos hlt]
    refine ⟨?_, ?_, ?_⟩
    · simpa using hd
    · simpa using hlt
    · simpa using hs
  · simp only [if_neg hlt]
    refine ⟨?_, ?_, ?_⟩
    · simpa using hd
    · simpa using hl
    · exact Or.inl (by simpa using Nat.mod_lt (rb.start + 1) hz)

/-- `take (i+1)` of a list updated at position `i` is the original prefix
followed by the new element. -/
theorem take_set_succ (l : List Nat) (i : Nat) (b : Nat) (h : i < l.length) :
    (l.set i b).take (i + 1) = l.take i ++ [b] := by
  rw [List.set_eq_take_append_cons_drop, if_pos h, List.take_append_eq_append_take]
  have h1 : (l.take i).take (i + 1) = l.take i := by
    apply List.take_of_length_le
    simp only [List.length_take]
    omega
  have h2 : i + 1 - (l.take i).length = 1 := by
    simp only [List.length_take]
    omega
  rw [h1, h2]
  rfl

/-- Updating the final position of a list replaces its last element. -/
theorem set_last_eq (l : List Nat) (i : Nat) (b : Nat) (h : l.length = i + 1) :
    l.set i b = l.take i ++ [b] := by
  rw [List.set_eq_take_append_cons_drop, if_pos (by omega)]
  rw [List.drop_eq_nil_of_le (by omega)]

/-- Appending a single byte to a ring buffer keeps exactly the last
`size` bytes of the logical stream. -/
theorem rbBytes_pushByte (rb : RingBuffer) (b : Nat) (h : rbWF rb) (hz : 0 < rb.size) :
    rbBytes (pushByte rb b) = lastN rb.size (rbBytes rb ++ [b]) := by
  obtain ⟨hd, hl, hs⟩ := h
  have hst : rb.start < rb.size := by
    rcases hs with h1 | h1
    · exact h1
    · omega
  have hBlen : (rbBytes rb).length = rb.len := rbBytes_length rb ⟨hd, hl, hs⟩
  have hB := rbBytes_eq rb ⟨hd, hl, hs⟩
  have hWF1 := rbWF_pushByte rb b ⟨hd, hl, hs⟩ hz
  have hB1 := rbBytes_eq (pushByte rb b) hWF1
  by_cases hlen : rb.len < rb.size
  · -- not-full case: len grows, start is unchanged
    have hpush : pushByte rb b =
        { rb with data := rb.data.set ((rb.start + rb.len) % rb.size) b,
                  len := rb.len + 1 } := by
      simp only [pushByte, if_pos hlen]
    have hlast : lastN rb.size (rbBytes rb ++ [b]) = rbBytes rb ++ [b] := by
      unfold lastN
      have : (rbBytes rb ++ [b]).length - rb.size = 0 := by
        simp only [List.length_append, hBlen, List.length_cons, List.length_nil]
        omega
      rw [this, List.drop_zero]
    rw [hlast, hB1, hpush, hB]
    by_cases hnw : rb.start + rb.len < rb.size
    · -- the appended byte does not wrap
      have hpos : (rb.start + rb.len) % rb.size = rb.start + rb.len :=
        Nat.mod_eq_of_lt hnw
      simp only [hpos]
      have hdropset : (rb.data.set (rb.start + rb.len) b).drop rb.start
          = (rb.data.drop rb.start).set rb.len b := by
        rw [List.drop_set, if_neg (by omega)]
        congr 1
        omega
      have htakeset : (rb.data.set (rb.start + rb.len) b).take rb.start
          = rb.data.take rb.start := by
        rw [List.set_take, List.set_eq_of_length_le]
        simp only [List.length_take]
        omega
      rw [hdropset, htakeset, List.take_append_eq_append_take,
        List.take_append_eq_append_take]
      have hz1 : rb.len + 1 - ((rb.data.drop rb.start).set rb.len b).length = 0 := by
        simp only [List.length_set, List.length_drop, hd]
        omega
      have hz2 : rb.len - (rb.data.drop rb.start).length = 0 := by
        simp only [List.length_drop, hd]
        omega
      rw [hz1, hz2]
      simp only [List.take_zero, List.append_nil]
      rw [take_set_succ _ _ _ (by simp only [List.length_drop, hd]; omega)]
    · -- the appended byte wraps to the front of the backing slice
      have hge : rb.size ≤ rb.start + rb.len := by omega
      have hpos : (rb.start + rb.len) % rb.size = rb.start + rb.len - rb.size := by
        have h2s : rb.start + rb.len < 2 * rb.size := by omega
        have := Nat.mod_eq_sub_mod hge
        rw [this, Nat.mod_eq_of_lt (by omega)]
      simp only [hpos]
      have hplt : rb.start + rb.len - rb.size < rb.start := by omega
      have hdropset : (rb.data.set (rb.start + rb.len - rb.size) b).drop rb.start
          = rb.data.drop rb.start := by
        rw [List.drop_set, if_pos hplt]
      have htakeset : (rb.data.set (rb.start + rb.len - rb.size) b).take rb.start
          = (rb.data.take rb.start).set (rb.start + rb.len - rb.size) b := by
        rw [List.set_take]
      rw [hdropset, htakeset, List.take_append_eq_append_take,
        List.take_append_eq_append_take]
      have hA : (rb.data.drop rb.start).take (rb.len + 1) = rb.data.drop rb.start := by
        apply List.take_of_length_le
        simp only [List.length_drop, hd]
        omega
      have hA2 : (rb.data.drop rb.start).take rb.len = rb.data.drop rb.start := by
        apply List.take_of_length_le
        simp only [List.length_drop, hd]
        omega
      rw [hA, hA2]
      have hi1 : rb.len + 1 - (rb.data.drop rb.start).length
          = (rb.start + rb.len - rb.size) + 1 := by
        simp only [List.length_drop, hd]
        omega
      have hi2 : rb.len - (rb.data.drop rb.start).length
          = rb.start + rb.len - rb.size := by
        simp only [List.length_drop, hd]
        omega
      rw [hi1, hi2,
        take_set_succ _ _ _ (by simp only [List.length_take]; omega),
        List.take_take]
      have hmin : (rb.start + rb.len - rb.size) ⊓ rb.start
          = rb.start + rb.len - rb.size := by
        omega
      rw [hmin, List.append_assoc]
  · -- full case: the oldest byte is dropped
    have hfull : rb.len = rb.size := by omega
    have hpush : pushByte rb b =
        { rb with data := rb.data.set rb.start b,
                  start := (rb.start + 1) % rb.size } := by
      simp only [pushByte, if_neg hlen]
      have : (rb.start + rb.len) % rb.size = rb.start := by
        rw [hfull, Nat.add_mod_right, Nat.mod_eq_of_lt hst]
      rw [this]
    have hlast : lastN rb.size (rbBytes rb ++ [b]) = (rbBytes rb).drop 1 ++ [b] := by
      unfold lastN
      have hlen1 : (rbBytes rb ++ [b]).length - rb.size = 1 := by
        simp only [List.length_append, hBlen, List.length_cons, List.length_nil]
        omega
      rw [hlen1, List.drop_append_of_le_length (by omega)]
    rw [hlast, hB1, hpush, hB]
    have hBfull : (rb.data.drop rb.start ++ rb.data.take rb.start).take rb.len
        = rb.data.drop rb.start ++ rb.data.take rb.start := by
      apply List.take_of_length_le
      simp only [List.length_append, List.length_drop, List.length_take, hd]
      omega
    rw [hBfull]
    have hdrop1 : (rb.data.drop rb.start ++ rb.data.take rb.start).drop 1
        = rb.data.drop (rb.start + 1) ++ rb.data.take rb.start := by
      rw [List.drop_append_of_le_length (by simp only [List.length_drop, hd]; omega),
        List.drop_drop]
    rw [hdrop1]
    by_cases hwrap : rb.start + 1 < rb.size
    · have hstart1 : (rb.start + 1) % rb.size = rb.start + 1 := Nat.mod_eq_of_lt hwrap
      simp only [hstart1]
      have hdropset : (rb.data.set rb.start b).drop (rb.start + 1)
          = rb.data.drop (rb.start + 1) := by
        rw [List.drop_set, if_pos (by omega)]
      have htakeset : (rb.data.set rb.start b).take (rb.start + 1)
          = rb.data.take rb.start ++ [b] := by
        rw [List.set_take,
          set_last_eq _ _ _ (by simp only [List.length_take]; omega),
          List.take_take]
        congr 2
        omega
      rw [hdropset, htakeset, ← List.append_assoc]
      apply List.take_of_length_le
      simp only [List.length_append, List.length_drop, List.length_take,
        List.length_cons, List.length_nil, hd]
      omega
    · -- start wraps to 0
      have hse : rb.start + 1 = rb.size := by omega
      have hstart0 : (rb.start + 1) % rb.size = 0 := by
        rw [hse, Nat.mod_self]
      simp only [hstart0, List.drop_zero, List.take_zero, List.append_nil]
      have hset : rb.data.set rb.start b = rb.data.take rb.start ++ [b] := by
        rw [List.set_eq_take_append_cons_drop, if_pos (by omega)]
        have : rb.data.drop (rb.start + 1) = [] :=
          List.drop_eq_nil_of_le (by omega)
        rw [this]
      rw [hset]
      have hdropall : rb.data.drop (rb.start + 1) = [] :=
        List.drop_eq_nil_of_le (by omega)
      rw [hdropall, List.nil_append]
      apply List.take_of_length_le
      simp only [List.length_append, List.length_take, List.length_cons,
        List.length_nil, hd]
      omega

/-- Truncating to the last `C` elements is absorbed by a later append. -/
theorem lastN_lastN_append (C : Nat) (l r : List Nat) :
    lastN C (lastN C l ++ r) = lastN C (l ++ r) := by
  simp only [lastN, List.length_append, List.length_drop,
    List.drop_append_eq_append_drop, List.drop_drop]
  congr 1
  · congr 1
    omega
  · congr 1
    omega

theorem lastN_length (C : Nat) (l : List Nat) :
    (lastN C l).length = min l.length C := by
  unfold lastN
  simp only [List.length_drop]
  omega

theorem lastN_of_length_le (C : Nat) (l : List Nat) (h : l.length ≤ C) :
    lastN C l = l := by
  unfold lastN
  have : l.length - C = 0 := by omega
  rw [this, List.drop_zero]

theorem pushByte_size (rb : RingBuffer) (b : Nat) : (pushByte rb b).size = rb.size := by
  unfold pushByte
  split <;> rfl

/-- The byte-appending loop of `RingBuffer.Write` keeps exactly the last
`size` bytes of the logical stream, for any chunk. -/
theorem foldl_pushByte_spec (p : List Nat) (rb : RingBuffer) (h : rbWF rb)
    (hz : 0 < rb.size) :
    rbWF (p.foldl pushByte rb) ∧ (p.foldl pushByte rb).size = rb.size ∧
      rbBytes (p.foldl pushByte rb) = lastN rb.size (rbBytes rb ++ p) := by
  induction p generalizing rb with
  | nil =>
    refine ⟨h, rfl, ?_⟩
    rw [List.foldl_nil, List.append_nil, lastN_of_length_le]
    rw [rbBytes_length rb h]
    exact h.2.1
  | cons b rest ih =>
    rw [List.foldl_cons]
    have h1 := rbWF_pushByte rb b h hz
    have hsz := pushByte_size rb b
    obtain ⟨hw, hs2, hb⟩ := ih (pushByte rb b) h1 (by rw [hsz]; exact hz)
    refine ⟨hw, by rw [hs2, hsz], ?_⟩
    rw [hb, hsz, rbBytes_pushByte rb b h hz, lastN_lastN_append]
    congr 1
    rw [List.append_assoc, List.singleton_append]

/-- `RingBuffer.Write` keeps exactly the last `size` bytes of the logical
stream and preserves the structural invariant and the capacity. -/
theorem rbWrite_spec (rb : RingBuffer) (p : List Nat) (h : rbWF rb) :
    rbWF (rbWrite rb p) ∧ (rbWrite rb p).size = rb.size ∧
      rbBytes (rbWrite rb p) = lastN rb.size (rbBytes rb ++ p) := by
  obtain ⟨hd, hl, hs⟩ := h
  by_cases h0 : p.length = 0
  · have hp : p = [] := List.length_eq_zero.mp h0
    subst hp
    have hred : rbWrite rb [] = rb := rfl
    refine ⟨?_, ?_, ?_⟩ <;> rw [hred]
    · exact ⟨hd, hl, hs⟩
    · rw [List.append_nil, lastN_of_length_le]
      rw [rbBytes_length rb ⟨hd, hl, hs⟩]
      exact hl
  · by_cases hbig : rb.size ≤ p.length
    · have hred : rbWrite rb p = { rb with
          data := p.drop (p.length - rb.size),
          start := 0,
          len := rb.size } := by
        unfold rbWrite rbWriteFull
        simp only [if_neg h0, if_pos hbig]
      have hWF2 : rbWF { rb with
          data := p.drop (p.length - rb.size),
          start := 0,
          len := rb.size } := by
        refine ⟨?_, ?_, Or.inr rfl⟩
        · simp only [List.length_drop]
          omega
        · exact Nat.le_refl _
      refine ⟨?_, ?_, ?_⟩ <;> rw [hred]
      · exact hWF2
      · rw [rbBytes_eq _ hWF2]
        simp only [List.drop_zero, List.take_zero, List.append_nil]
        have htake : (p.drop (p.length - rb.size)).take rb.size
            = p.drop (p.length - rb.size) := by
          apply List.take_of_length_le
          simp only [List.length_drop]
          omega
        rw [htake]
        unfold lastN
        rw [List.drop_append_eq_append_drop]
        have hBlen := rbBytes_length rb ⟨hd, hl, hs⟩
        have hnil : (rbBytes rb).drop ((rbBytes rb ++ p).length - rb.size) = [] := by
          apply List.drop_eq_nil_of_le
          simp only [List.length_append, hBlen]
          omega
        rw [hnil, List.nil_append]
        congr 1
        simp only [List.length_append, hBlen]
        omega
    · have hred : rbWrite rb p = p.foldl pushByte rb := by
        unfold rbWrite rbWriteFull
        simp only [if_neg h0, if_neg hbig]
      have hz : 0 < rb.size := by omega
      obtain ⟨hw, hsz, hb⟩ := foldl_pushByte_spec p rb ⟨hd, hl, hs⟩ hz
      refine ⟨?_, ?_, ?_⟩ <;> rw [hred]
      · exact hw
      · exact hsz
      · exact hb


theorem foldl_rbWrite_spec (ps : List (List Nat)) (rb : RingBuffer) (h : rbWF rb) :
    rbWF (ps.foldl rbWrite rb) ∧ (ps.foldl rbWrite rb).size = rb.size ∧
      rbBytes (ps.foldl rbWrite rb) = lastN rb.size (rbBytes rb ++ ps.flatten) := by
  induction ps generalizing rb with
  | nil =>
    refine ⟨h, rfl, ?_⟩
    rw [List.foldl_nil, List.flatten_nil, List.append_nil, lastN_of_length_le]
    rw [rbBytes_length rb h]
    exact h.2.1
  | cons p rest ih =>
    rw [List.foldl_cons]
    obtain ⟨h1, hsz1, hb1⟩ := rbWrite_spec rb p h
    obtain ⟨hw, hs2, hb⟩ := ih (rbWrite rb p) h1
    refine ⟨hw, by rw [hs2, hsz1], ?_⟩
    rw [hb, hsz1, hb1, lastN_lastN_append, List.flatten_cons, ← List.append_assoc]

/-- **C4.** For a `RingBuffer` of capacity `C`, after any finite sequence
of `Write` calls whose concatenated input is `s = ps.flatten`, `Bytes`
returns exactly the last `min |s| C` bytes of `s` in logical order, and the
content length never exceeds `C`. -/
theorem c4_ringBuffer_snapshot (C : Nat) (ps : List (List Nat)) :
    rbBytes (ps.foldl rbWrite (NewRingBuffer C)) = lastN C ps.flatten ∧
      (rbBytes (ps.foldl rbWrite (NewRingBuffer C))).length
        = min ps.flatten.length C ∧
      (rbBytes (ps.foldl rbWrite (NewRingBuffer C))).length ≤ C := by
  obtain ⟨-, -, hb⟩ := foldl_rbWrite_spec ps (NewRingBuffer C) (rbWF_new C)
  have hsz : (NewRingBuffer C).size = C := rfl
  rw [hsz, rbBytes_new C, List.nil_append] at hb
  refine ⟨hb, ?_, ?_⟩
  · rw [hb, lastN_length]
  · rw [hb, lastN_length]
    omega

/-- **C10.** `RingBuffer.Write` is total: for every input `p` - including
the empty input and inputs of at least the capacity - it returns
`n = len(p)` and a nil error. -/
theorem c10_write_total (rb : RingBuffer) (p : List Nat) :
    (rbWriteFull rb p).1 = p.length ∧ (rbWriteFull rb p).2.1 = none := by
  unfold rbWriteFull
  by_cases h0 : p.length = 0
  · simp [h0]
  · by_cases hbig : rb.size ≤ p.length
    · simp [h0, hbig]
    · simp [h0, hbig]

/-! ## Atomic join: the serialized session trace

`RegisterClient` (mds.go) inserts the client and delivers the scrollback
snapshot to the joining sink while holding `clientsMu`, and
`broadcastOutput` (mds.go) writes each chunk of PTY output to the
scrollback ring **and** to every registered sink while holding the same
`clientsMu`.  Every execution therefore linearizes into a sequence of
atomic events: output chunks and registrations.  The trace model below is
that linearization; `received` maps each registered client id to the bytes
its sink has been handed (snapshot first, then each broadcast chunk).
-/

inductive SessionEvent where
  | output (bs : List Nat)
  | register (cid : String)
  deriving Repr, DecidableEq

/-- First-match association lookup (Go map lookup; ids are unique). -/
def assocGet (l : List (String × List Nat)) (k : String) : Option (List Nat) :=
  match l with
  | [] => none
  | p :: rest => if p.1 = k then some p.2 else assocGet rest k

structure TraceState where
  ring : RingBuffer
  received : List (String × List Nat)
  deriving Repr, DecidableEq

/-- One serialized critical section: a PTY output chunk goes to the ring
and to every registered sink (`broadcastOutput`); a registration snapshots
the ring into the joining sink (`RegisterClient`). -/
def traceStep (s : TraceState) (ev : SessionEvent) : TraceState :=
  match ev with
  | .output bs =>
      { ring := rbWrite s.ring bs,
        received := s.received.map (fun p => (p.1, p.2 ++ bs)) }
  | .register cid =>
      { ring := s.ring,
        received := s.received ++ [(cid, rbBytes s.ring)] }

def initTrace (C : Nat) : TraceState :=
  { ring := NewRingBuffer C, received := [] }

def runTrace (C : Nat) (evs : List SessionEvent) : TraceState :=
  evs.foldl traceStep (initTrace C)

/-- All PTY output bytes of a trace, in order. -/
def producedBytes (evs : List SessionEvent) : List Nat :=
  (evs.map (fun ev => match ev with | .output bs => bs | .register _ => [])).flatten

theorem producedBytes_append (l1 l2 : List SessionEvent) :
    producedBytes (l1 ++ l2) = producedBytes l1 ++ producedBytes l2 := by
  unfold producedBytes
  rw [List.map_append, List.flatten_append]

/-- Broadcasting a chunk appends it to an existing sink and creates none. -/
theorem assocGet_map_chunk (l : List (String × List Nat)) (bs : List Nat) (cid : String) :
    assocGet (l.map (fun p => (p.1, p.2 ++ bs))) cid
      = (assocGet l cid).map (fun v => v ++ bs) := by
  induction l with
  | nil => rfl
  | cons p rest ih =>
    simp only [List.map_cons, assocGet]
    by_cases hp : p.1 = cid
    · rw [if_pos hp, if_pos hp]
      rfl
    · rw [if_neg hp, if_neg hp]
      exact ih

theorem assocGet_append_of_none (l1 l2 : List (String × List Nat)) (cid : String)
    (h : assocGet l1 cid = none) :
    assocGet (l1 ++ l2) cid = assocGet l2 cid := by
  induction l1 with
  | nil => rfl
  | cons p rest ih =>
    simp only [assocGet, List.cons_append] at h ⊢
    by_cases hp : p.1 = cid
    · rw [if_pos hp] at h
      exact absurd h (by simp)
    · rw [if_neg hp] at h ⊢
      exact ih h

theorem assocGet_append_of_some (l1 l2 : List (String × List Nat)) (cid : String)
    (v : List Nat) (h : assocGet l1 cid = some v) :
    assocGet (l1 ++ l2) cid = some v := by
  induction l1 with
  | nil => exact absurd h (by simp [assocGet])
  | cons p rest ih =>
    simp only [assocGet, List.cons_append] at h ⊢
    by_cases hp : p.1 = cid
    · rw [if_pos hp] at h ⊢
      exact h
    · rw [if_neg hp] at h ⊢
      exact ih h

/-- A client id that never registered has no sink. -/
theorem assocGet_run_none (C : Nat) (evs : List SessionEvent) (cid : String)
    (h : SessionEvent.register cid ∉ evs) :
    assocGet (runTrace C evs).received cid = none := by
  suffices hgen : ∀ (s : TraceState), assocGet s.received cid = none →
      assocGet (evs.foldl traceStep s).received cid = none by
    exact hgen (initTrace C) rfl
  induction evs with
  | nil =>
    intro s hs
    exact hs
  | cons ev rest ih =>
    intro s hs
    have hev : ev ≠ SessionEvent.register cid := by
      intro he
      exact h (by rw [he]; exact List.mem_cons_self _ _)
    have hrest : SessionEvent.register cid ∉ rest := by
      intro hr
      exact h (List.mem_cons_of_mem _ hr)
    rw [List.foldl_cons]
    apply ih hrest
    cases ev with
    | output bs =>
      simp only [traceStep]
      rw [assocGet_map_chunk, hs]
      rfl
    | register c2 =>
      simp only [traceStep]
      have hc2 : ¬c2 = cid := by
        intro he
        exact hev (by rw [he])
      rw [assocGet_append_of_none _ _ _ hs]
      simp only [assocGet, if_neg hc2]

/-- Once a sink exists, every later event appends exactly the broadcast
output to it. -/
theorem assocGet_run_some (evs : List SessionEvent) (s : TraceState) (cid : String)
    (v : List Nat) (h : assocGet s.received cid = some v) :
    assocGet (evs.foldl traceStep s).received cid = some (v ++ producedBytes evs) := by
  induction evs generalizing s v with
  | nil =>
    rw [List.foldl_nil]
    simpa [producedBytes] using h
  | cons ev rest ih =>
    rw [List.foldl_cons]
    cases ev with
    | output bs =>
      have hstep : assocGet (traceStep s (SessionEvent.output bs)).received cid
          = some (v ++ bs) := by
        simp only [traceStep]
        rw [assocGet_map_chunk, h]
        rfl
      have hrec := ih _ _ hstep
      rw [hrec]
      have hpb : producedBytes (SessionEvent.output bs :: rest)
          = bs ++ producedBytes rest := by
        simp [producedBytes]
      rw [hpb, List.append_assoc]
    | register c2 =>
      have hstep : assocGet (traceStep s (SessionEvent.register c2)).received cid
          = some v := by
        simp only [traceStep]
        exact assocGet_append_of_some _ _ _ _ h
      have hrec := ih _ _ hstep
      rw [hrec]
      have hpb : producedBytes (SessionEvent.register c2 :: rest)
          = producedBytes rest := by
        simp [producedBytes]
      rw [hpb]


/-- The ring of a trace is the fold of the writes of its output chunks. -/
theorem runTrace_ring (C : Nat) (evs : List SessionEvent) :
    rbWF (runTrace C evs).ring ∧ (runTrace C evs).ring.size = C ∧
      rbBytes (runTrace C evs).ring = lastN C (producedBytes evs) := by
  suffices hgen : ∀ (s : TraceState), rbWF s.ring → s.ring.size = C →
      rbWF (evs.foldl traceStep s).ring ∧ (evs.foldl traceStep s).ring.size = C ∧
        rbBytes (evs.foldl traceStep s).ring
          = lastN C (rbBytes s.ring ++ producedBytes evs) by
    obtain ⟨h1, h2, h3⟩ := hgen (initTrace C) (rbWF_new C) rfl
    refine ⟨h1, h2, ?_⟩
    unfold runTrace
    rw [h3]
    have hinit : rbBytes (initTrace C).ring = [] := rbBytes_new C
    rw [hinit, List.nil_append]
  induction evs with
  | nil =>
    intro s hWF hsz
    rw [List.foldl_nil]
    refine ⟨hWF, hsz, ?_⟩
    rw [producedBytes, List.map_nil, List.flatten_nil, List.append_nil,
      lastN_of_length_le]
    rw [rbBytes_length s.ring hWF, ← hsz]
    exact hWF.2.1
  | cons ev rest ih =>
    intro s hWF hsz
    rw [List.foldl_cons]
    cases ev with
    | output bs =>
      obtain ⟨hw, hs2, hb2⟩ := rbWrite_spec s.ring bs hWF
      have hring : (traceStep s (SessionEvent.output bs)).ring = rbWrite s.ring bs := rfl
      obtain ⟨h1, h2, h3⟩ := ih (traceStep s (SessionEvent.output bs))
        (by rw [hring]; exact hw) (by rw [hring, hs2]; exact hsz)
      refine ⟨h1, h2, ?_⟩
      rw [h3, hring, hb2, hsz]
      rw [lastN_lastN_append]
      have hpb : producedBytes (SessionEvent.output bs :: rest)
          = bs ++ producedBytes rest := by
        simp [producedBytes]
      rw [hpb, List.append_assoc]
    | register c2 =>
      have hring : (traceStep s (SessionEvent.register c2)).ring = s.ring := rfl
      obtain ⟨h1, h2, h3⟩ := ih (traceStep s (SessionEvent.register c2))
        (by rw [hring]; exact hWF) (by rw [hring]; exact hsz)
      refine ⟨h1, h2, ?_⟩
      rw [h3, hring]
      have hpb : producedBytes (SessionEvent.register c2 :: rest)
          = producedBytes rest := by
        simp [producedBytes]
      rw [hpb]

/-- **C3.** For every client joining a session while PTY output is
concurrently produced, there is a split point `k` such that the client
receives at registration exactly the scrollback snapshot of the output up
to `k` (the last at-most-`C` bytes of it) and afterwards every byte
produced after `k` exactly once: nothing is duplicated across the join
boundary and nothing is dropped.  The trace quantifies over all possible
interleavings of broadcast chunks and registrations of other clients. -/
theorem c3_atomic_join (C : Nat) (pre post : List SessionEvent) (cid : String)
    (hfresh : SessionEvent.register cid ∉ pre) :
    ∃ k, k ≤ (producedBytes (pre ++ SessionEvent.register cid :: post)).length ∧
      assocGet (runTrace C (pre ++ SessionEvent.register cid :: post)).received cid
        = some
          (lastN C ((producedBytes (pre ++ SessionEvent.register cid :: post)).take k)
            ++ (producedBytes (pre ++ SessionEvent.register cid :: post)).drop k) := by
  have hpb : producedBytes (pre ++ SessionEvent.register cid :: post)
      = producedBytes pre ++ producedBytes post := by
    rw [producedBytes_append]
    congr 1
  refine ⟨(producedBytes pre).length, ?_, ?_⟩
  · rw [hpb, List.length_append]
    omega
  · have h1 : assocGet (runTrace C pre).received cid = none :=
      assocGet_run_none C pre cid hfresh
    have h2 : assocGet (traceStep (runTrace C pre) (SessionEvent.register cid)).received cid
        = some (rbBytes (runTrace C pre).ring) := by
      simp only [traceStep]
      rw [assocGet_append_of_none _ _ _ h1]
      simp [assocGet]
    have hrun : runTrace C (pre ++ SessionEvent.register cid :: post)
        = post.foldl traceStep (traceStep (runTrace C pre) (SessionEvent.register cid)) := by
      unfold runTrace
      rw [List.foldl_append, List.foldl_cons]
    rw [hrun, assocGet_run_some post _ cid _ h2]
    obtain ⟨-, -, hring⟩ := runTrace_ring C pre
    rw [hring, hpb, List.take_left, List.drop_left]

/-- Witness for C3: capacity 4, two bytes produced before the join, one
after; the joining client receives exactly `[1, 2]` then `[3]`. -/
theorem c3_atomic_join_witness :
    SessionEvent.register "c" ∉ [SessionEvent.output [1, 2]] ∧
      (∃ k,
        k ≤ (producedBytes ([SessionEvent.output [1, 2]]
              ++ SessionEvent.register "c" :: [SessionEvent.output [3]])).length ∧
        assocGet (runTrace 4 ([SessionEvent.output [1, 2]]
              ++ SessionEvent.register "c" :: [SessionEvent.output [3]])).received "c"
          = some
            (lastN 4 ((producedBytes ([SessionEvent.output [1, 2]]
                  ++ SessionEvent.register "c" :: [SessionEvent.output [3]])).take k)
              ++ (producedBytes ([SessionEvent.output [1, 2]]
                  ++ SessionEvent.register "c" :: [SessionEvent.output [3]])).drop k)) :=
  ⟨by decide, c3_atomic_join 4 [SessionEvent.output [1, 2]] [SessionEvent.output [3]]
    "c" (by decide)⟩

/-! ## Client set and writer election

Embedding of the session client-set state of the mds.go session code:
`clients map[string]*Client`, `clientOrder []string` and
`writerClientID string`, together with the operations `RegisterClient`,
`SetClientActivity`, `RemoveClient` and the election `electWriter`.
The Go map is modelled as a first-match association list (its keys are
kept duplicate-free by the operations); the parts of the operations that
only emit notifications or deliver scrollback do not touch these three
fields and are omitted here (the trace model above covers delivery).
-/

inductive ClientActivity where
  | inactive
  | active
  deriving Repr, DecidableEq

structure SessClient where
  cols : Nat
  rows : Nat
  activity : ClientActivity
  deriving Repr, DecidableEq

structure SessState where
  clients : List (String × SessClient)
  clientOrder : List String
  writerClientID : String
  deriving Repr, DecidableEq

def initSession : SessState :=
  { clients := [], clientOrder := [], writerClientID := "" }

/-- Go map read `s.clients[id]`. -/
def lookupClient (l : List (String × SessClient)) (id : String) : Option SessClient :=
  match l with
  | [] => none
  | p :: rest => if p.1 = id then some p.2 else lookupClient rest id

/-- Go map write `s.clients[id] = c`: replace the binding in place, or add
it if absent. -/
def insertClient (l : List (String × SessClient)) (id : String) (c : SessClient) :
    List (String × SessClient) :=
  match l with
  | [] => [(id, c)]
  | p :: rest => if p.1 = id then (id, c) :: rest else p :: insertClient rest id c

/-- Go map delete `delete(s.clients, id)`. -/
def eraseClient (l : List (String × SessClient)) (id : String) :
    List (String × SessClient) :=
  match l with
  | [] => []
  | p :: rest => if p.1 = id then rest else p :: eraseClient rest id

/-- Removal of the first occurrence from `clientOrder` (the Go loop
splices the slice at the first match and breaks). -/
def eraseFirst (l : List String) (id : String) : List String :=
  match l with
  | [] => []
  | x :: rest => if x = id then rest else x :: eraseFirst rest id

def keysOf (l : List (String × SessClient)) : List String := l.map Prod.fst

/-- `exists && writer.Activity == ClientActive` for a map entry. -/
def clientIsActive (l : List (String × SessClient)) (id : String) : Bool :=
  match lookupClient l id with
  | some c => match c.activity with
      | ClientActivity.active => true
      | ClientActivity.inactive => false
  | none => false

/-- First id in insertion order whose client exists and is Active
(`""` when there is none): the first loop of `electWriter`. -/
def firstActiveID (order : List String) (l : List (String × SessClient)) : String :=
  match order with
  | [] => ""
  | id :: rest =>
      if clientIsActive l id then id else firstActiveID rest l

/-- First id in insertion order whose client exists (`""` when there is
none): the fallback loop of `electWriter`. -/
def firstAnyID (order : List String) (l : List (String × SessClient)) : String :=
  match order with
  | [] => ""
  | id :: rest =>
      match lookupClient l id with
      | some _ => id
      | none => firstAnyID rest l

/-- `electWriter` (mds.go): if the current writer still exists and is
Active, no change; otherwise the first Active client in insertion order,
else the first existing client in insertion order, else `""`; writes the
field only when the winner differs from the old writer. -/
def electWriter (s : SessState) : SessState :=
  if s.writerClientID ≠ "" ∧ clientIsActive s.clients s.writerClientID = true then s
  else
    let a := firstActiveID s.clientOrder s.clients
    let newWriterID := if a = "" then firstAnyID s.clientOrder s.clients else a
    if newWriterID = s.writerClientID then s
    else { s with writerClientID := newWriterID }

/-- `RegisterClient` (mds.go), restricted to the three election-relevant
fields: insert the client as Active, append to the insertion order, run
the election.  (The closed-session early return, the notification batch
and the scrollback delivery do not touch these fields.) -/
def registerClient (s : SessState) (id : String) (cols rows : Nat) : SessState :=
  electWriter
    { s with
      clients := insertClient s.clients id ⟨cols, rows, ClientActivity.active⟩,
      clientOrder := s.clientOrder ++ [id] }

/-- `SetClientActivity` (mds.go): missing ids are ignored; dimensions and
activity are updated; the election runs only when the activity changed. -/
def setClientActivity (s : SessState) (id : String) (activity : ClientActivity)
    (cols rows : Nat) : SessState :=
  match lookupClient s.clients id with
  | none => s
  | some c =>
      let s1 := { s with clients := insertClient s.clients id ⟨cols, rows, activity⟩ }
      if c.activity ≠ activity then electWriter s1 else s1

/-- `RemoveClient` (mds.go): delete from the map, splice the first
occurrence out of the order list, clear the writer field if the removed
client held it, and run the election. -/
def removeClient (s : SessState) (id : String) : SessState :=
  electWriter
    { clients := eraseClient s.clients id,
      clientOrder := eraseFirst s.clientOrder id,
      writerClientID := if s.writerClientID = id then "" else s.writerClientID }

inductive SessOp where
  | register (id : String) (cols rows : Nat)
  | setActivity (id : String) (activity : ClientActivity) (cols rows : Nat)
  | remove (id : String)
  deriving Repr, DecidableEq

def applyOp (s : SessState) (op : SessOp) : SessState :=
  match op with
  | SessOp.register id cols rows => registerClient s id cols rows
  | SessOp.setActivity id activity cols rows => setClientActivity s id activity cols rows
  | SessOp.remove id => removeClient s id

def runOps (ops : List SessOp) : SessState :=
  ops.foldl applyOp initSession

/-- The connection handler only ever registers the non-empty generated ids
`client-N`; `""` is the map sentinel for "no writer". -/
def opWF : SessOp → Prop
  | SessOp.register id _ _ => id ≠ ""
  | SessOp.setActivity _ _ _ _ => True
  | SessOp.remove _ => True

instance (op : SessOp) : Decidable (opWF op) := by
  cases op <;> simp only [opWF] <;> infer_instance

/-- The spec's election rules as a function of the previous writer and the
post-operation client set and order: (1) a still-Active previous writer is
kept; (2) otherwise the first Active client in insertion order; (3)
otherwise the first client of any activity in insertion order; (4) `""`
when the set is empty. -/
def electSpecWriter (prev : String) (l : List (String × SessClient))
    (order : List String) : String :=
  if prev ≠ "" ∧ clientIsActive l prev = true then prev
  else if firstActiveID order l = "" then firstAnyID order l
  else firstActiveID order l

theorem lookupClient_insert (l : List (String × SessClient)) (id : String)
    (c : SessClient) (x : String) :
    lookupClient (insertClient l id c) x
      = if x = id then some c else lookupClient l x := by
  induction l with
  | nil =>
    by_cases hx : x = id
    · subst hx
      simp [insertClient, lookupClient]
    · have hxs : ¬id = x := fun h => hx h.symm
      simp [insertClient, lookupClient, hx, hxs]
  | cons p rest ih =>
    simp only [insertClient]
    by_cases hp : p.1 = id
    · rw [if_pos hp]
      by_cases hx : x = id
      · subst hx
        simp [lookupClient]
      · have hxs : ¬id = x := fun h => hx h.symm
        have hpx : ¬p.1 = x := by rw [hp]; exact hxs
        simp [lookupClient, hx, hxs, hpx]
    · rw [if_neg hp]
      simp only [lookupClient]
      by_cases hpx : p.1 = x
      · rw [if_pos hpx, if_pos hpx]
        have hx : ¬x = id := by rw [← hpx]; exact hp
        rw [if_neg hx]
      · rw [if_neg hpx, if_neg hpx, ih]

theorem lookupClient_mem_keys (l : List (String × SessClient)) (x : String)
    (c : SessClient) (h : lookupClient l x = some c) : x ∈ keysOf l := by
  induction l with
  | nil => exact absurd h (by simp [lookupClient])
  | cons p rest ih =>
    simp only [lookupClient] at h
    by_cases hp : p.1 = x
    · rw [← hp]
      exact List.mem_cons_self _ _
    · rw [if_neg hp] at h
      exact List.mem_cons_of_mem _ (ih h)

theorem lookupClient_ne_none_of_mem (l : List (String × SessClient)) (x : String)
    (h : x ∈ keysOf l) : lookupClient l x ≠ none := by
  induction l with
  | nil => exact absurd h (by simp [keysOf])
  | cons p rest ih =>
    simp only [lookupClient]
    by_cases hp : p.1 = x
    · rw [if_pos hp]
      simp
    · rw [if_neg hp]
      apply ih
      simp only [keysOf, List.map_cons, List.mem_cons] at h
      rcases h with h | h
      · exact absurd h.symm hp
      · exact h

theorem lookupClient_none_of_not_mem (l : List (String × SessClient)) (x : String)
    (h : x ∉ keysOf l) : lookupClient l x = none := by
  induction l with
  | nil => rfl
  | cons p rest ih =>
    simp only [keysOf, List.map_cons, List.mem_cons, not_or] at h
    have hp : ¬p.1 = x := fun he => h.1 he.symm
    simp only [lookupClient, if_neg hp]
    exact ih h.2

theorem keysOf_insert_mem (l : List (String × SessClient)) (id : String)
    (c : SessClient) (h : id ∈ keysOf l) :
    keysOf (insertClient l id c) = keysOf l := by
  induction l with
  | nil => exact absurd h (by simp [keysOf])
  | cons p rest ih =>
    simp only [insertClient]
    by_cases hp : p.1 = id
    · rw [if_pos hp]
      simp [keysOf, hp]
    · rw [if_neg hp]
      simp only [keysOf, List.map_cons] at h ⊢
      congr 1
      apply ih
      rcases List.mem_cons.mp h with h1 | h1
      · exact absurd h1.symm hp
      · exact h1

theorem keysOf_insert_not_mem (l : List (String × SessClient)) (id : String)
    (c : SessClient) (h : id ∉ keysOf l) :
    keysOf (insertClient l id c) = keysOf l ++ [id] := by
  induction l with
  | nil => rfl
  | cons p rest ih =>
    simp only [keysOf, List.map_cons, List.mem_cons, not_or] at h
    have hp : ¬p.1 = id := fun he => h.1 he.symm
    simp only [insertClient, if_neg hp]
    simp only [keysOf, List.map_cons, List.cons_append]
    congr 1
    exact ih h.2

theorem keysOf_erase_sublist (l : List (String × SessClient)) (id : String) :
    (keysOf (eraseClient l id)).Sublist (keysOf l) := by
  induction l with
  | nil => exact List.Sublist.refl _
  | cons p rest ih =>
    simp only [eraseClient]
    by_cases hp : p.1 = id
    · rw [if_pos hp]
      exact List.sublist_cons_of_sublist _ (List.Sublist.refl _)
    · rw [if_neg hp]
      simp only [keysOf, List.map_cons]
      exact List.Sublist.cons₂ _ ih

theorem not_mem_keysOf_erase (l : List (String × SessClient)) (id : String)
    (h : (keysOf l).Nodup) : id ∉ keysOf (eraseClient l id) := by
  induction l with
  | nil => simp [eraseClient, keysOf]
  | cons p rest ih =>
    simp only [keysOf, List.map_cons, List.nodup_cons] at h
    simp only [eraseClient]
    by_cases hp : p.1 = id
    · rw [if_pos hp, ← hp]
      exact h.1
    · rw [if_neg hp]
      simp only [keysOf, List.map_cons, List.mem_cons, not_or]
      exact ⟨fun he => hp he.symm, ih h.2⟩

theorem mem_eraseFirst_of_ne (l : List String) (id x : String) (hne : x ≠ id)
    (h : x ∈ l) : x ∈ eraseFirst l id := by
  induction l with
  | nil => exact absurd h (by simp)
  | cons y rest ih =>
    simp only [eraseFirst]
    by_cases hy : y = id
    · rw [if_pos hy]
      rcases List.mem_cons.mp h with h1 | h1
      · exact absurd (h1.trans hy) hne
      · exact h1
    · rw [if_neg hy]
      rcases List.mem_cons.mp h with h1 | h1
      · rw [h1]
        exact List.mem_cons_self _ _
      · exact List.mem_cons_of_mem _ (ih h1)

theorem firstActiveID_active (order : List String) (l : List (String × SessClient))
    (h : firstActiveID order l ≠ "") :
    clientIsActive l (firstActiveID order l) = true := by
  induction order with
  | nil => exact absurd rfl h
  | cons id rest ih =>
    simp only [firstActiveID] at h ⊢
    by_cases ha : clientIsActive l id = true
    · rw [if_pos ha]
      rw [if_pos ha] at h
      exact ha
    · rw [if_neg ha]
      rw [if_neg ha] at h
      exact ih h

theorem clientIsActive_false_of_empty_str (l : List (String × SessClient))
    (h3 : "" ∉ keysOf l) : clientIsActive l "" = false := by
  unfold clientIsActive
  rw [lookupClient_none_of_not_mem l "" h3]

theorem firstActiveID_none (order : List String) (l : List (String × SessClient))
    (h3 : "" ∉ keysOf l) (h : firstActiveID order l = "") :
    ∀ id ∈ order, clientIsActive l id = false := by
  induction order with
  | nil =>
    intro id hid
    exact absurd hid (by simp)
  | cons y rest ih =>
    intro id hid
    simp only [firstActiveID] at h
    by_cases ha : clientIsActive l y = true
    · rw [if_pos ha] at h
      subst h
      rw [clientIsActive_false_of_empty_str l h3] at ha
      exact absurd ha (by simp)
    · rw [if_neg ha] at h
      rcases List.mem_cons.mp hid with h1 | h1
      · subst h1
        cases hb : clientIsActive l id with
        | false => rfl
        | true => exact absurd hb ha
      · exact ih h id h1

theorem firstAnyID_spec (order : List String) (l : List (String × SessClient)) :
    firstAnyID order l = "" ∨
      (lookupClient l (firstAnyID order l) ≠ none ∧ firstAnyID order l ∈ order) := by
  induction order with
  | nil => exact Or.inl rfl
  | cons y rest ih =>
    simp only [firstAnyID]
    cases hy : lookupClient l y with
    | some c =>
      refine Or.inr ⟨by rw [hy]; simp, List.mem_cons_self _ _⟩
    | none =>
      rcases ih with h | ⟨h1, h2⟩
      · exact Or.inl h
      · exact Or.inr ⟨h1, List.mem_cons_of_mem _ h2⟩

theorem firstAnyID_none (order : List String) (l : List (String × SessClient))
    (h3 : "" ∉ keysOf l) (h : firstAnyID order l = "") :
    ∀ id ∈ order, lookupClient l id = none := by
  induction order with
  | nil =>
    intro id hid
    exact absurd hid (by simp)
  | cons y rest ih =>
    intro id hid
    simp only [firstAnyID] at h
    cases hy : lookupClient l y with
    | some c =>
      rw [hy] at h
      subst h
      exact absurd (lookupClient_mem_keys l "" c hy) h3
    | none =>
      rw [hy] at h
      rcases List.mem_cons.mp hid with h1 | h1
      · rw [h1]
        exact hy
      · exact ih h id h1

theorem electSpec_eq_pos (prev : String) (l : List (String × SessClient))
    (order : List String) (hc : prev ≠ "" ∧ clientIsActive l prev = true) :
    electSpecWriter prev l order = prev := by
  unfold electSpecWriter
  rw [if_pos hc]

theorem electSpec_eq_neg (prev : String) (l : List (String × SessClient))
    (order : List String) (hc : ¬(prev ≠ "" ∧ clientIsActive l prev = true)) :
    electSpecWriter prev l order
      = if firstActiveID order l = "" then firstAnyID order l
        else firstActiveID order l := by
  unfold electSpecWriter
  rw [if_neg hc]

/-- The Go `electWriter` computes exactly the writer given by the spec's
four rules applied to the previous writer; its early returns never change
the outcome. -/
theorem electWriter_eq (s : SessState) :
    electWriter s
      = { s with writerClientID :=
            electSpecWriter s.writerClientID s.clients s.clientOrder } := by
  cases s with
  | mk cl order w =>
    simp only [electWriter, electSpecWriter]
    by_cases hc : w ≠ "" ∧ clientIsActive cl w = true
    · rw [if_pos hc, if_pos hc]
    · rw [if_neg hc, if_neg hc]
      by_cases h0 : firstActiveID order cl = ""
      · rw [if_pos h0]
        by_cases hw : firstAnyID order cl = w
        · rw [if_pos hw, hw]
        · rw [if_neg hw]
      · rw [if_neg h0]
        by_cases hw : firstActiveID order cl = w
        · rw [if_pos hw, hw]
        · rw [if_neg hw]

theorem clientIsActive_mem (l : List (String × SessClient)) (y : String)
    (h : clientIsActive l y = true) : y ∈ keysOf l := by
  unfold clientIsActive at h
  cases hl : lookupClient l y with
  | none =>
    rw [hl] at h
    exact absurd h (by simp)
  | some c => exact lookupClient_mem_keys l y c hl

/-- An elected writer of `""` means the client set is empty. -/
theorem electSpecWriter_empty (prev : String) (l : List (String × SessClient))
    (order : List String) (h1 : ∀ x ∈ keysOf l, x ∈ order) (h3 : "" ∉ keysOf l)
    (h : electSpecWriter prev l order = "") : l = [] := by
  by_cases hc : prev ≠ "" ∧ clientIsActive l prev = true
  · rw [electSpec_eq_pos prev l order hc] at h
    exact absurd h hc.1
  · rw [electSpec_eq_neg prev l order hc] at h
    by_cases h0 : firstActiveID order l = ""
    · rw [if_pos h0] at h
      cases hl : l with
      | nil => rfl
      | cons p rest =>
        exfalso
        have hmem : p.1 ∈ keysOf l := by
          rw [hl]
          exact List.mem_cons_self _ _
        have hord : p.1 ∈ order := h1 p.1 hmem
        have hnone := firstAnyID_none order l h3 h p.1 hord
        exact lookupClient_ne_none_of_mem l p.1 hmem hnone
    · rw [if_neg h0] at h
      exact absurd h h0

/-- The elected writer, when not `""`, is an existing client. -/
theorem electSpecWriter_mem (prev : String) (l : List (String × SessClient))
    (order : List String) (h : electSpecWriter prev l order ≠ "") :
    electSpecWriter prev l order ∈ keysOf l := by
  by_cases hc : prev ≠ "" ∧ clientIsActive l prev = true
  · rw [electSpec_eq_pos prev l order hc] at h ⊢
    exact clientIsActive_mem l prev hc.2
  · rw [electSpec_eq_neg prev l order hc] at h ⊢
    by_cases h0 : firstActiveID order l = ""
    · rw [if_pos h0] at h ⊢
      rcases firstAnyID_spec order l with hf | ⟨hf, -⟩
      · exact absurd hf h
      · cases hl : lookupClient l (firstAnyID order l) with
        | none => exact absurd hl hf
        | some c => exact lookupClient_mem_keys l _ c hl
    · rw [if_neg h0] at h ⊢
      exact clientIsActive_mem l _ (firstActiveID_active order l h0)

/-- The spec election is idempotent: re-evaluating the rules with the
freshly elected writer as the previous writer changes nothing. -/
theorem electSpecWriter_idem (prev : String) (l : List (String × SessClient))
    (order : List String) (h3 : "" ∉ keysOf l) :
    electSpecWriter (electSpecWriter prev l order) l order
      = electSpecWriter prev l order := by
  by_cases hc : prev ≠ "" ∧ clientIsActive l prev = true
  · rw [electSpec_eq_pos prev l order hc, electSpec_eq_pos prev l order hc]
  · rw [electSpec_eq_neg prev l order hc]
    by_cases h0 : firstActiveID order l = ""
    · rw [if_pos h0]
      by_cases hf : firstAnyID order l = ""
      · rw [hf]
        rw [electSpec_eq_neg "" l order (by simp), if_pos h0]
        exact hf
      · have hcond : ¬(firstAnyID order l ≠ "" ∧
            clientIsActive l (firstAnyID order l) = true) := by
          rcases firstAnyID_spec order l with h2 | ⟨-, hord⟩
          · exact absurd h2 hf
          · intro hcontra
            have := firstActiveID_none order l h3 h0 _ hord
            rw [hcontra.2] at this
            exact absurd this (by simp)
        rw [electSpec_eq_neg _ l order hcond, if_pos h0]
    · rw [if_neg h0]
      have ha := firstActiveID_active order l h0
      rw [electSpec_eq_pos _ l order ⟨h0, ha⟩]

theorem clientIsActive_congr (l1 l2 : List (String × SessClient)) (y : String)
    (h : ∀ x, (lookupClient l1 x).map (fun c => c.activity)
        = (lookupClient l2 x).map (fun c => c.activity)) :
    clientIsActive l1 y = clientIsActive l2 y := by
  unfold clientIsActive
  have hy := h y
  cases h1 : lookupClient l1 y with
  | none =>
    cases h2 : lookupClient l2 y with
    | none => rfl
    | some c =>
      rw [h1, h2] at hy
      exact absurd hy (by simp)
  | some c =>
    cases h2 : lookupClient l2 y with
    | none =>
      rw [h1, h2] at hy
      exact absurd hy (by simp)
    | some d =>
      rw [h1, h2] at hy
      have hact : c.activity = d.activity := by simpa using hy
      dsimp only
      rw [hact]

theorem firstActiveID_congr (order : List String) (l1 l2 : List (String × SessClient))
    (h : ∀ x, (lookupClient l1 x).map (fun c => c.activity)
        = (lookupClient l2 x).map (fun c => c.activity)) :
    firstActiveID order l1 = firstActiveID order l2 := by
  induction order with
  | nil => rfl
  | cons y rest ih =>
    simp only [firstActiveID]
    rw [clientIsActive_congr l1 l2 y h, ih]

theorem firstAnyID_congr (order : List String) (l1 l2 : List (String × SessClient))
    (h : ∀ x, (lookupClient l1 x).map (fun c => c.activity)
        = (lookupClient l2 x).map (fun c => c.activity)) :
    firstAnyID order l1 = firstAnyID order l2 := by
  induction order with
  | nil => rfl
  | cons y rest ih =>
    simp only [firstAnyID]
    have hy := h y
    cases h1 : lookupClient l1 y with
    | none =>
      cases h2 : lookupClient l2 y with
      | none => exact ih
      | some c =>
        rw [h1, h2] at hy
        exact absurd hy (by simp)
    | some c =>
      cases h2 : lookupClient l2 y with
      | none =>
        rw [h1, h2] at hy
        exact absurd hy (by simp)
      | some d => rfl

theorem electSpecWriter_congr (prev : String) (order : List String)
    (l1 l2 : List (String × SessClient))
    (h : ∀ x, (lookupClient l1 x).map (fun c => c.activity)
        = (lookupClient l2 x).map (fun c => c.activity)) :
    electSpecWriter prev l1 order = electSpecWriter prev l2 order := by
  unfold electSpecWriter
  rw [clientIsActive_congr l1 l2 prev h, firstActiveID_congr order l1 l2 h,
    firstAnyID_congr order l1 l2 h]

/-- State invariant of the session client set: every client appears in the
insertion order, ids are unique, `""` is never a client id, and the writer
field is a fixpoint of the spec election rules. -/
def SessInv (s : SessState) : Prop :=
  (∀ x ∈ keysOf s.clients, x ∈ s.clientOrder) ∧
    (keysOf s.clients).Nodup ∧
    "" ∉ keysOf s.clients ∧
    electSpecWriter s.writerClientID s.clients s.clientOrder = s.writerClientID

theorem sessInv_init : SessInv initSession := by
  refine ⟨?_, ?_, ?_, ?_⟩
  · intro x hx
    exact absurd hx (by simp [initSession, keysOf])
  · simp [initSession, keysOf]
  · simp [initSession, keysOf]
  · decide

/-- Running `electWriter` on a structurally sound state establishes the
full invariant. -/
theorem electWriter_inv (s : SessState)
    (h1 : ∀ x ∈ keysOf s.clients, x ∈ s.clientOrder)
    (h2 : (keysOf s.clients).Nodup)
    (h3 : "" ∉ keysOf s.clients) :
    SessInv (electWriter s) := by
  rw [electWriter_eq]
  exact ⟨h1, h2, h3, electSpecWriter_idem _ _ _ h3⟩

/-- One step of the spec: apply the data changes of the operation and then
always recompute the writer with the election rules (previous writer, new
client set, new insertion order). -/
def specApplyOp (s : SessState) (op : SessOp) : SessState :=
  match op with
  | SessOp.register id cols rows =>
      { clients := insertClient s.clients id ⟨cols, rows, ClientActivity.active⟩,
        clientOrder := s.clientOrder ++ [id],
        writerClientID :=
          electSpecWriter s.writerClientID
            (insertClient s.clients id ⟨cols, rows, ClientActivity.active⟩)
            (s.clientOrder ++ [id]) }
  | SessOp.setActivity id activity cols rows =>
      match lookupClient s.clients id with
      | none => s
      | some _ =>
          { clients := insertClient s.clients id ⟨cols, rows, activity⟩,
            clientOrder := s.clientOrder,
            writerClientID :=
              electSpecWriter s.writerClientID
                (insertClient s.clients id ⟨cols, rows, activity⟩) s.clientOrder }
  | SessOp.remove id =>
      { clients := eraseClient s.clients id,
        clientOrder := eraseFirst s.clientOrder id,
        writerClientID :=
          electSpecWriter s.writerClientID (eraseClient s.clients id)
            (eraseFirst s.clientOrder id) }

/-- Each operation of the code equals its spec step and preserves the
invariant. -/
theorem applyOp_spec (s : SessState) (op : SessOp) (hs : SessInv s) (hop : opWF op) :
    applyOp s op = specApplyOp s op ∧ SessInv (applyOp s op) := by
  obtain ⟨hs1, hs2, hs3, hsfix⟩ := hs
  cases op with
  | register id cols rows =>
    have hid : id ≠ "" := hop
    have h1 : ∀ x ∈ keysOf (insertClient s.clients id ⟨cols, rows, ClientActivity.active⟩),
        x ∈ s.clientOrder ++ [id] := by
      intro x hx
      by_cases hmem : id ∈ keysOf s.clients
      · rw [keysOf_insert_mem _ _ _ hmem] at hx
        exact List.mem_append_left _ (hs1 x hx)
      · rw [keysOf_insert_not_mem _ _ _ hmem] at hx
        rcases List.mem_append.mp hx with hx1 | hx1
        · exact List.mem_append_left _ (hs1 x hx1)
        · exact List.mem_append_right _ hx1
    have h2 : (keysOf (insertClient s.clients id ⟨cols, rows, ClientActivity.active⟩)).Nodup := by
      by_cases hmem : id ∈ keysOf s.clients
      · rw [keysOf_insert_mem _ _ _ hmem]
        exact hs2
      · rw [keysOf_insert_not_mem _ _ _ hmem]
        rw [List.nodup_append]
        refine ⟨hs2, List.nodup_singleton _, ?_⟩
        intro a ha hb
        rw [List.mem_singleton.mp hb] at ha
        exact hmem ha
    have h3 : "" ∉ keysOf (insertClient s.clients id ⟨cols, rows, ClientActivity.active⟩) := by
      by_cases hmem : id ∈ keysOf s.clients
      · rw [keysOf_insert_mem _ _ _ hmem]
        exact hs3
      · rw [keysOf_insert_not_mem _ _ _ hmem]
        intro hin
        rcases List.mem_append.mp hin with h | h
        · exact hs3 h
        · exact hid (List.mem_singleton.mp h).symm
    constructor
    · simp only [applyOp, registerClient, specApplyOp]
      rw [electWriter_eq]
    · simp only [applyOp, registerClient]
      exact electWriter_inv _ h1 h2 h3
  | setActivity id activity cols rows =>
    cases hl : lookupClient s.clients id with
    | none =>
      constructor
      · simp only [applyOp, setClientActivity, specApplyOp, hl]
      · simp only [applyOp, setClientActivity, hl]
        exact ⟨hs1, hs2, hs3, hsfix⟩
    | some c =>
      have hmem : id ∈ keysOf s.clients := lookupClient_mem_keys _ _ _ hl
      have hkeys : keysOf (insertClient s.clients id ⟨cols, rows, activity⟩)
          = keysOf s.clients := keysOf_insert_mem _ _ _ hmem
      have h1 : ∀ x ∈ keysOf (insertClient s.clients id ⟨cols, rows, activity⟩),
          x ∈ s.clientOrder := by
        rw [hkeys]
        exact hs1
      have h2 := hkeys ▸ hs2
      have h3 := hkeys ▸ hs3
      by_cases hact : c.activity ≠ activity
      · constructor
        · simp only [applyOp, setClientActivity, specApplyOp, hl, if_pos hact]
          rw [electWriter_eq]
        · simp only [applyOp, setClientActivity, hl, if_pos hact]
          exact electWriter_inv _ h1 h2 h3
      · have hacteq : c.activity = activity := by
          by_contra hne
          exact hact hne
        have hmap : ∀ x,
            (lookupClient (insertClient s.clients id ⟨cols, rows, activity⟩) x).map
                (fun d => d.activity)
              = (lookupClient s.clients x).map (fun d => d.activity) := by
          intro x
          rw [lookupClient_insert]
          by_cases hx : x = id
          · rw [if_pos hx, hx, hl]
            simp [hacteq]
          · rw [if_neg hx]
        have hcongr := electSpecWriter_congr s.writerClientID s.clientOrder
          (insertClient s.clients id ⟨cols, rows, activity⟩) s.clients hmap
        constructor
        · simp only [applyOp, setClientActivity, specApplyOp, hl, if_neg hact]
          rw [hcongr, hsfix]
        · simp only [applyOp, setClientActivity, hl, if_neg hact]
          refine ⟨h1, h2, h3, ?_⟩
          rw [hcongr, hsfix]
  | remove id =>
    have hsub := keysOf_erase_sublist s.clients id
    have h1 : ∀ x ∈ keysOf (eraseClient s.clients id), x ∈ eraseFirst s.clientOrder id := by
      intro x hx
      have hxk : x ∈ keysOf s.clients := hsub.subset hx
      have hxne : x ≠ id := by
        intro he
        rw [he] at hx
        exact not_mem_keysOf_erase s.clients id hs2 hx
      exact mem_eraseFirst_of_ne _ _ _ hxne (hs1 x hxk)
    have h2 : (keysOf (eraseClient s.clients id)).Nodup := hs2.sublist hsub
    have h3 : "" ∉ keysOf (eraseClient s.clients id) := fun h => hs3 (hsub.subset h)
    have hwmid : electSpecWriter (if s.writerClientID = id then "" else s.writerClientID)
        (eraseClient s.clients id) (eraseFirst s.clientOrder id)
        = electSpecWriter s.writerClientID (eraseClient s.clients id)
          (eraseFirst s.clientOrder id) := by
      by_cases hw : s.writerClientID = id
      · rw [if_pos hw]
        have hact : clientIsActive (eraseClient s.clients id) id = false := by
          unfold clientIsActive
          rw [lookupClient_none_of_not_mem _ _ (not_mem_keysOf_erase s.clients id hs2)]
        have hc1 : ¬(("" : String) ≠ "" ∧
            clientIsActive (eraseClient s.clients id) "" = true) := by
          simp
        have hc2 : ¬(s.writerClientID ≠ "" ∧
            clientIsActive (eraseClient s.clients id) s.writerClientID = true) := by
          rw [hw, hact]
          simp
        rw [electSpec_eq_neg _ _ _ hc1, electSpec_eq_neg _ _ _ hc2]
      · rw [if_neg hw]
    constructor
    · simp only [applyOp, removeClient, specApplyOp]
      rw [electWriter_eq]
      simp only []
      rw [hwmid]
    · simp only [applyOp, removeClient]
      exact electWriter_inv _ h1 h2 h3

theorem runOps_append (ops : List SessOp) (op : SessOp) :
    runOps (ops ++ [op]) = applyOp (runOps ops) op := by
  unfold runOps
  rw [List.foldl_append, List.foldl_cons, List.foldl_nil]

theorem sessInv_runOps (ops : List SessOp) (hops : ∀ o ∈ ops, opWF o) :
    SessInv (runOps ops) := by
  unfold runOps
  suffices hgen : ∀ (s : SessState), SessInv s → (∀ o ∈ ops, opWF o) →
      SessInv (ops.foldl applyOp s) from hgen initSession sessInv_init hops
  clear hops
  induction ops with
  | nil =>
    intro s hs _
    exact hs
  | cons op rest ih =>
    intro s hs hall
    rw [List.foldl_cons]
    have hop : opWF op := hall op (List.mem_cons_self _ _)
    have hrest : ∀ o ∈ rest, opWF o := fun o ho => hall o (List.mem_cons_of_mem _ ho)
    exact ih (applyOp s op) (applyOp_spec s op hs hop).2 hrest

/-- **C1.** After each `registerClient`, `removeClient` or
`setClientActivity` operation the writer equals the result of the spec's
election rules (still-Active previous writer kept; else first Active in
insertion order; else first client in insertion order; `""` exactly when
the client set is empty): each code step coincides with the spec step that
always re-runs the rules, and the writer is `""` iff no client is attached.
Determinism over identical operation sequences is immediate because
`runOps` is a pure function of the sequence (third conjunct makes the
step-by-step evaluation explicit). -/
theorem c1_election_refinement (ops : List SessOp) (op : SessOp)
    (hops : ∀ o ∈ ops, opWF o) (hop : opWF op) :
    applyOp (runOps ops) op = specApplyOp (runOps ops) op ∧
      runOps (ops ++ [op]) = applyOp (runOps ops) op ∧
      ((runOps (ops ++ [op])).writerClientID = "" ↔
        (runOps (ops ++ [op])).clients = []) := by
  have hinv := sessInv_runOps ops hops
  obtain ⟨heq, hinv2⟩ := applyOp_spec (runOps ops) op hinv hop
  have happ := runOps_append ops op
  refine ⟨heq, happ, ?_⟩
  rw [happ]
  obtain ⟨k1, k2, k3, kfix⟩ := hinv2
  constructor
  · intro hw
    rw [hw] at kfix
    exact electSpecWriter_empty _ _ _ k1 k3 kfix
  · intro hcl
    by_contra hw
    have hmem := electSpecWriter_mem _ _ _ (by rw [kfix]; exact hw)
    rw [kfix, hcl] at hmem
    exact absurd hmem (by simp [keysOf])

/-- Witness for C1: after `[register "a"]` the step `register "b"` agrees
with the spec step and leaves exactly one writer. -/
theorem c1_election_refinement_witness :
    (∀ o ∈ [SessOp.register "a" 80 24], opWF o) ∧ opWF (SessOp.register "b" 80 24) ∧
      (applyOp (runOps [SessOp.register "a" 80 24]) (SessOp.register "b" 80 24)
          = specApplyOp (runOps [SessOp.register "a" 80 24]) (SessOp.register "b" 80 24) ∧
        runOps ([SessOp.register "a" 80 24] ++ [SessOp.register "b" 80 24])
          = applyOp (runOps [SessOp.register "a" 80 24]) (SessOp.register "b" 80 24) ∧
        ((runOps ([SessOp.register "a" 80 24] ++ [SessOp.register "b" 80 24])).writerClientID = ""
          ↔ (runOps ([SessOp.register "a" 80 24] ++ [SessOp.register "b" 80 24])).clients = [])) :=
  ⟨by decide, by decide,
    c1_election_refinement [SessOp.register "a" 80 24] (SessOp.register "b" 80 24)
      (by decide) (by decide)⟩

/-- With duplicate-free keys, the number of map entries whose id equals
`w` is `1` if `w` is a key and `0` otherwise. -/
theorem writer_filter_count (l : List (String × SessClient)) (w : String)
    (h : (keysOf l).Nodup) :
    (l.filter (fun p => p.1 == w)).length = if w ∈ keysOf l then 1 else 0 := by
  induction l with
  | nil => simp [keysOf]
  | cons p rest ih =>
    have hcons : (keysOf (p :: rest)) = p.1 :: keysOf rest := rfl
    rw [hcons] at h
    obtain ⟨hp1, hp2⟩ := List.nodup_cons.mp h
    by_cases hp : p.1 = w
    · have hbeq : (p.1 == w) = true := by
        rw [hp]
        simp
      rw [List.filter_cons, if_pos (by rw [hbeq])]
      simp only [List.length_cons]
      rw [ih hp2]
      have hwmem : w ∈ keysOf (p :: rest) := by
        rw [hcons, ← hp]
        exact List.mem_cons_self _ _
      have hwrest : w ∉ keysOf rest := by
        rw [← hp]
        exact hp1
      rw [if_neg hwrest, if_pos hwmem]
    · have hbeq : (p.1 == w) = false := by
        simp [hp]
      rw [List.filter_cons, if_neg (by rw [hbeq]; simp)]
      rw [ih hp2]
      have hiff : w ∈ keysOf (p :: rest) ↔ w ∈ keysOf rest := by
        rw [hcons]
        constructor
        · intro hin
          rcases List.mem_cons.mp hin with h1 | h1
          · exact absurd h1.symm hp
          · exact h1
        · exact List.mem_cons_of_mem _
      by_cases hw : w ∈ keysOf rest
      · rw [if_pos hw, if_pos (hiff.mpr hw)]
      · rw [if_neg hw, if_neg (fun hc => hw (hiff.mp hc))]

/-- **C2.** In every state reachable by `registerClient`,
`setClientActivity` and `removeClient`, at most one attached client is the
designated writer, and exactly one client is the writer iff the client set
is non-empty (the writer designation is empty only for an empty set). -/
theorem c2_writer_unique (ops : List SessOp) (hops : ∀ o ∈ ops, opWF o) :
    ((runOps ops).clients.filter
        (fun p => p.1 == (runOps ops).writerClientID)).length ≤ 1 ∧
      ((runOps ops).clients ≠ [] ↔
        ((runOps ops).clients.filter
          (fun p => p.1 == (runOps ops).writerClientID)).length = 1) := by
  obtain ⟨k1, k2, k3, kfix⟩ := sessInv_runOps ops hops
  have hcount := writer_filter_count (runOps ops).clients (runOps ops).writerClientID k2
  rw [hcount]
  constructor
  · split <;> omega
  · constructor
    · intro hne
      have hwne : (runOps ops).writerClientID ≠ "" := by
        intro h0
        rw [h0] at kfix
        exact hne (electSpecWriter_empty _ _ _ k1 k3 kfix)
      have hmem := electSpecWriter_mem _ _ _ (by rw [kfix]; exact hwne)
      rw [kfix] at hmem
      rw [if_pos hmem]
    · intro h1c
      intro hcl
      rw [hcl] at h1c
      have : (runOps ops).writerClientID ∉ keysOf ([] : List (String × SessClient)) := by
        simp [keysOf]
      rw [if_neg this] at h1c
      exact absurd h1c (by simp)

/-- Witness for C2: after one registration followed by the tab going
hidden, the sole client is still the unique writer. -/
theorem c2_writer_unique_witness :
    (∀ o ∈ [SessOp.register "a" 80 24,
        SessOp.setActivity "a" ClientActivity.inactive 0 0], opWF o) ∧
      (((runOps [SessOp.register "a" 80 24,
            SessOp.setActivity "a" ClientActivity.inactive 0 0]).clients.filter
          (fun p => p.1 == (runOps [SessOp.register "a" 80 24,
            SessOp.setActivity "a" ClientActivity.inactive 0 0]).writerClientID)).length ≤ 1 ∧
        ((runOps [SessOp.register "a" 80 24,
            SessOp.setActivity "a" ClientActivity.inactive 0 0]).clients ≠ [] ↔
          ((runOps [SessOp.register "a" 80 24,
              SessOp.setActivity "a" ClientActivity.inactive 0 0]).clients.filter
            (fun p => p.1 == (runOps [SessOp.register "a" 80 24,
              SessOp.setActivity "a" ClientActivity.inactive 0 0]).writerClientID)).length = 1)) :=
  ⟨by decide,
    c2_writer_unique [SessOp.register "a" 80 24,
      SessOp.setActivity "a" ClientActivity.inactive 0 0] (by decide)⟩

/-! ## Terminal sizing (`recalculateSize`, mds.go)

`none` models the early returns (no resize happens); `some (cols, rows)`
models `s.Resize(minCols, minRows)`.
-/

def MinTerminalCols : Nat := 40
def MinTerminalRows : Nat := 10

def isActiveClient (c : SessClient) : Bool :=
  c.activity == ClientActivity.active

/-- The `minCols` accumulation loop of `recalculateSize`: only Active
clients are inspected, seeded with `0xFFFF`. -/
def minColsFold (cs : List SessClient) : Nat :=
  cs.foldl (fun m c =>
    match c.activity with
    | ClientActivity.active => if c.cols < m then c.cols else m
    | ClientActivity.inactive => m) 65535

/-- The `minRows` accumulation loop of `recalculateSize`. -/
def minRowsFold (cs : List SessClient) : Nat :=
  cs.foldl (fun m c =>
    match c.activity with
    | ClientActivity.active => if c.rows < m then c.rows else m
    | ClientActivity.inactive => m) 65535

/-- `recalculateSize` (mds.go): return early when no clients are attached;
compute the minima over Active clients; clamp below by
`MinTerminalCols`/`MinTerminalRows`; return early when a minimum is still
the `0xFFFF` seed; otherwise resize the PTY to the clamped minima. -/
def recalculateSize (cs : List SessClient) : Option (Nat × Nat) :=
  if cs = [] then none
  else
    let minCols0 := minColsFold cs
    let minRows0 := minRowsFold cs
    let minCols := if minCols0 < MinTerminalCols then MinTerminalCols else minCols0
    let minRows := if minRows0 < MinTerminalRows then MinTerminalRows else minRows0
    if minCols = 65535 ∨ minRows = 65535 then none
    else some (minCols, minRows)

/-- The sizing rule in the words of the claim: with at least one Active
client, resize to `max(40, min cols over Active)` and
`max(10, min rows over Active)`; with none, do not resize. -/
def specRecalcSize (cs : List SessClient) : Option (Nat × Nat) :=
  match ((cs.filter isActiveClient).map (fun c => c.cols)).min?,
      ((cs.filter isActiveClient).map (fun c => c.rows)).min? with
  | some mc, some mr =>
      some (max MinTerminalCols mc, max MinTerminalRows mr)
  | _, _ => none

theorem minColsFold_eq (cs : List SessClient) :
    minColsFold cs
      = ((cs.filter isActiveClient).map (fun c => c.cols)).foldl min 65535 := by
  suffices hgen : ∀ (m : Nat), cs.foldl (fun m c =>
      match c.activity with
      | ClientActivity.active => if c.cols < m then c.cols else m
      | ClientActivity.inactive => m) m
      = ((cs.filter isActiveClient).map (fun c => c.cols)).foldl min m from
    hgen 65535
  induction cs with
  | nil =>
    intro m
    rfl
  | cons c rest ih =>
    intro m
    rw [List.foldl_cons]
    cases hc : c.activity with
    | active =>
      have hfil : isActiveClient c = true := by
        unfold isActiveClient
        rw [hc]
        rfl
      rw [List.filter_cons, if_pos hfil, List.map_cons, List.foldl_cons]
      have hmin : (if c.cols < m then c.cols else m) = min m c.cols := by
        rw [Nat.min_def]
        split <;> split <;> omega
      rw [hmin]
      exact ih (min m c.cols)
    | inactive =>
      have hfil : ¬isActiveClient c = true := by
        unfold isActiveClient
        rw [hc]
        simp
      rw [List.filter_cons, if_neg hfil]
      exact ih m

theorem minRowsFold_eq (cs : List SessClient) :
    minRowsFold cs
      = ((cs.filter isActiveClient).map (fun c => c.rows)).foldl min 65535 := by
  suffices hgen : ∀ (m : Nat), cs.foldl (fun m c =>
      match c.activity with
      | ClientActivity.active => if c.rows < m then c.rows else m
      | ClientActivity.inactive => m) m
      = ((cs.filter isActiveClient).map (fun c => c.rows)).foldl min m from
    hgen 65535
  induction cs with
  | nil =>
    intro m
    rfl
  | cons c rest ih =>
    intro m
    rw [List.foldl_cons]
    cases hc : c.activity with
    | active =>
      have hfil : isActiveClient c = true := by
        unfold isActiveClient
        rw [hc]
        rfl
      rw [List.filter_cons, if_pos hfil, List.map_cons, List.foldl_cons]
      have hmin : (if c.rows < m then c.rows else m) = min m c.rows := by
        rw [Nat.min_def]
        split <;> split <;> omega
      rw [hmin]
      exact ih (min m c.rows)
    | inactive =>
      have hfil : ¬isActiveClient c = true := by
        unfold isActiveClient
        rw [hc]
        simp
      rw [List.filter_cons, if_neg hfil]
      exact ih m

/-- Folding `min` from the `0xFFFF` seed equals the true minimum as long
as all elements are `uint16` values. -/
theorem foldl_min_seed (l : List Nat) (hb : ∀ x ∈ l, x ≤ 65535) :
    l.foldl min 65535
      = match l.min? with
        | some m => m
        | none => 65535 := by
  cases l with
  | nil => rfl
  | cons a as =>
    have h1 : (a :: as).min? = some (as.foldl min a) := rfl
    rw [h1]
    show List.foldl min (min 65535 a) as = as.foldl min a
    rw [Nat.min_eq_right (hb a (List.mem_cons_self _ _))]

/-- **C5 counterexample.** A single Active client reporting
`cols = 0xFFFF` (a legal `uint16` RESIZE payload): the claim's formula
demands a resize to `(65535, 24)`, but `recalculateSize` hits its
`minCols == 0xFFFF` guard and skips the resize. -/
theorem c5_sizing_counterexample :
    recalculateSize [⟨65535, 24, ClientActivity.active⟩] = none ∧
      specRecalcSize [⟨65535, 24, ClientActivity.active⟩] = some (65535, 24) := by
  constructor
  · rfl
  · rfl

/-- **C5 (amended).** With no Active client, `recalculateSize` leaves the
PTY untouched.  With at least one Active client whose reported minima are
below the `0xFFFF` sentinel, the PTY is resized to
`(max 40 (min cols over Active), max 10 (min rows over Active))`; when the
minimum cols or rows over Active clients equals `0xFFFF` - only possible
if every Active client reports that extreme dimension - the resize is
skipped as well. -/
theorem c5_sizing_amended (cs : List SessClient)
    (hbc : ∀ c ∈ cs, c.cols ≤ 65535) (hbr : ∀ c ∈ cs, c.rows ≤ 65535) :
    ((∀ c ∈ cs, c.activity ≠ ClientActivity.active) → recalculateSize cs = none) ∧
      (minColsFold cs < 65535 → minRowsFold cs < 65535 →
        recalculateSize cs = specRecalcSize cs ∧
          specRecalcSize cs
            = some (max MinTerminalCols (minColsFold cs),
                max MinTerminalRows (minRowsFold cs))) := by
  have hbc2 : ∀ x ∈ (cs.filter isActiveClient).map (fun c => c.cols), x ≤ 65535 := by
    intro x hx
    obtain ⟨c, hcmem, hcx⟩ := List.mem_map.mp hx
    exact hcx ▸ hbc c (List.mem_of_mem_filter hcmem)
  have hbr2 : ∀ x ∈ (cs.filter isActiveClient).map (fun c => c.rows), x ≤ 65535 := by
    intro x hx
    obtain ⟨c, hcmem, hcx⟩ := List.mem_map.mp hx
    exact hcx ▸ hbr c (List.mem_of_mem_filter hcmem)
  have hcols := minColsFold_eq cs
  have hrows := minRowsFold_eq cs
  rw [foldl_min_seed _ hbc2] at hcols
  rw [foldl_min_seed _ hbr2] at hrows
  constructor
  · intro hna
    by_cases hcs : cs = []
    · simp only [recalculateSize, if_pos hcs]
    · have hfil : cs.filter isActiveClient = [] := by
        rw [List.filter_eq_nil_iff]
        intro a ha
        unfold isActiveClient
        have := hna a ha
        simp [this]
      have hfc : minColsFold cs = 65535 := by
        rw [hcols, hfil]
        rfl
      simp only [recalculateSize, if_neg hcs]
      rw [hfc]
      rw [if_pos]
      left
      decide
  · intro hc hr
    cases hmc : ((cs.filter isActiveClient).map (fun c => c.cols)).min? with
    | none =>
      rw [hmc] at hcols
      rw [hcols] at hc
      exact absurd hc (by norm_num)
    | some mc =>
      cases hmr : ((cs.filter isActiveClient).map (fun c => c.rows)).min? with
      | none =>
        rw [hmr] at hrows
        rw [hrows] at hr
        exact absurd hr (by norm_num)
      | some mr =>
        rw [hmc] at hcols
        rw [hmr] at hrows
        have hfilne : cs.filter isActiveClient ≠ [] := by
          intro hfil
          rw [hfil] at hmc
          exact absurd hmc (by simp)
        have hcsne : cs ≠ [] := by
          intro hcs
          rw [hcs] at hfilne
          exact hfilne rfl
        have hspec : specRecalcSize cs = some (max MinTerminalCols mc, max MinTerminalRows mr) := by
          unfold specRecalcSize
          rw [hmc, hmr]
        have hmcb : mc < 65535 := by
          rw [hcols] at hc
          exact hc
        have hmrb : mr < 65535 := by
          rw [hrows] at hr
          exact hr
        have hcode : recalculateSize cs
            = some (max MinTerminalCols mc, max MinTerminalRows mr) := by
          simp only [recalculateSize, if_neg hcsne]
          rw [hcols, hrows]
          rw [if_neg]
          · congr 1
            have e1 : (if mc < MinTerminalCols then MinTerminalCols else mc)
                = max MinTerminalCols mc := by
              rw [Nat.max_def]
              simp only [MinTerminalCols]
              split <;> split <;> omega
            have e2 : (if mr < MinTerminalRows then MinTerminalRows else mr)
                = max MinTerminalRows mr := by
              rw [Nat.max_def]
              simp only [MinTerminalRows]
              split <;> split <;> omega
            rw [e1, e2]
          · intro hcontra
            rcases hcontra with h | h
            · simp only [MinTerminalCols] at h
              split at h <;> omega
            · simp only [MinTerminalRows] at h
              split at h <;> omega
        rw [hcode, hspec, hcols, hrows]
        exact ⟨rfl, rfl⟩

/-- Witness for the amended C5: three Active clients at `(120,40)`,
`(80,24)`, `(200,60)` resize the PTY to `(80, 24)`. -/
theorem c5_sizing_amended_witness :
    (∀ c ∈ [(⟨120, 40, ClientActivity.active⟩ : SessClient),
        ⟨80, 24, ClientActivity.active⟩, ⟨200, 60, ClientActivity.active⟩],
      c.cols ≤ 65535) ∧
    (∀ c ∈ [(⟨120, 40, ClientActivity.active⟩ : SessClient),
        ⟨80, 24, ClientActivity.active⟩, ⟨200, 60, ClientActivity.active⟩],
      c.rows ≤ 65535) ∧
    recalculateSize [(⟨120, 40, ClientActivity.active⟩ : SessClient),
        ⟨80, 24, ClientActivity.active⟩, ⟨200, 60, ClientActivity.active⟩]
      = some (80, 24) ∧
    ((∀ c ∈ [(⟨120, 40, ClientActivity.active⟩ : SessClient),
        ⟨80, 24, ClientActivity.active⟩, ⟨200, 60, ClientActivity.active⟩],
        c.activity ≠ ClientActivity.active) →
      recalculateSize [(⟨120, 40, ClientActivity.active⟩ : SessClient),
        ⟨80, 24, ClientActivity.active⟩, ⟨200, 60, ClientActivity.active⟩] = none) ∧
      (minColsFold [(⟨120, 40, ClientActivity.active⟩ : SessClient),
          ⟨80, 24, ClientActivity.active⟩, ⟨200, 60, ClientActivity.active⟩] < 65535 →
        minRowsFold [(⟨120, 40, ClientActivity.active⟩ : SessClient),
          ⟨80, 24, ClientActivity.active⟩, ⟨200, 60, ClientActivity.active⟩] < 65535 →
        recalculateSize [(⟨120, 40, ClientActivity.active⟩ : SessClient),
            ⟨80, 24, ClientActivity.active⟩, ⟨200, 60, ClientActivity.active⟩]
          = specRecalcSize [(⟨120, 40, ClientActivity.active⟩ : SessClient),
            ⟨80, 24, ClientActivity.active⟩, ⟨200, 60, ClientActivity.active⟩] ∧
          specRecalcSize [(⟨120, 40, ClientActivity.active⟩ : SessClient),
              ⟨80, 24, ClientActivity.active⟩, ⟨200, 60, ClientActivity.active⟩]
            = some (max MinTerminalCols
                  (minColsFold [(⟨120, 40, ClientActivity.active⟩ : SessClient),
                    ⟨80, 24, ClientActivity.active⟩, ⟨200, 60, ClientActivity.active⟩]),
                max MinTerminalRows
                  (minRowsFold [(⟨120, 40, ClientActivity.active⟩ : SessClient),
                    ⟨80, 24, ClientActivity.active⟩,
                    ⟨200, 60, ClientActivity.active⟩]))) :=
  ⟨by decide, by decide, by decide,
    c5_sizing_amended [(⟨120, 40, ClientActivity.active⟩ : SessClient),
        ⟨80, 24, ClientActivity.active⟩, ⟨200, 60, ClientActivity.active⟩]
      (by decide) (by decide)⟩

/-! ## File transfer and frame dispatch (`handleShellStream`)

Embedding of the inbound-frame switch of the WebSocket shell handler for
the frames the claims are about: STDIN, FILE_START and FILE_CHUNK.
Frame parsing (type byte, length checks) happens before this switch and
is not part of the claims; `Frame` is the already-parsed frame.
`fileExists` abstracts the `O_EXCL` create (`os.IsExist`); other I/O
failures (create error, chunk write error, `GetWorkingDir` error) are the
omitted error paths, which discard the transfer in the same way.
Go's `path/filepath.Clean` and `Join` (Unix rules) are modelled
character-exactly below.
-/

def FileAckSuccess : Nat := 0
def FileAckProgress : Nat := 1
def FileAckError : Nat := 2
def MaxFileSize : Nat := 100 * 1024 * 1024

/-- Two consecutive dots somewhere in the name (`strings.Contains(name, "..")`). -/
def containsDotDot : List Char → Bool
  | [] => false
  | [_] => false
  | a :: b :: rest => (a = '.' && b = '.') || containsDotDot (b :: rest)

/-- `validateFilename` (shell handler): non-empty, no `/` or `\`, no
`..`, no leading `.`, no control characters below 0x20.  `true` models a
nil error. -/
def validateFilename (name : String) : Bool :=
  if name = "" then false
  else if name.data.contains '/' || name.data.contains '\\' then false
  else if containsDotDot name.data then false
  else if name.data.head? = some '.' then false
  else if name.data.any (fun c => c.toNat < 32) then false
  else true

/-- Split a path at `/` (keeping empty elements, like `strings.Split`). -/
def splitOnSlash : List Char → List (List Char)
  | [] => [[]]
  | c :: rest =>
      match splitOnSlash rest with
      | [] => [[c]]
      | h :: t => if c = '/' then [] :: h :: t else (c :: h) :: t

/-- Join path elements with `/`. -/
def joinSlash : List (List Char) → List Char
  | [] => []
  | [x] => x
  | x :: y :: rest => x ++ '/' :: joinSlash (y :: rest)

/-- One element of the lexical `Clean` algorithm of Go's
`path/filepath` (Unix): drop empty and `.` elements; `..` pops the last
element unless the stack ends in `..`, is discarded at the root, and is
kept for relative paths; anything else is pushed. -/
def processElem (rooted : Bool) (stack : List (List Char)) (e : List Char) :
    List (List Char) :=
  if e = [] ∨ e = ['.'] then stack
  else if e = ['.', '.'] then
    if stack ≠ [] ∧ stack.getLast? ≠ some ['.', '.'] then stack.dropLast
    else if rooted then stack
    else stack ++ [['.', '.']]
  else stack ++ [e]

/-- Model of Go's `path/filepath.Clean` for slash-separated paths. -/
def goClean (path : String) : String :=
  if path = "" then "."
  else
    let rooted := match path.data with
      | '/' :: _ => true
      | _ => false
    let stack := (splitOnSlash path.data).foldl (processElem rooted) []
    let out := joinSlash stack
    if rooted then ⟨'/' :: out⟩
    else if out = [] then "."
    else ⟨out⟩

/-- Model of Go's `path/filepath.Join` for two elements: join the
non-empty parts with `/` and `Clean` the result (`""` for no parts). -/
def goJoin (a b : String) : String :=
  if a = "" ∧ b = "" then ""
  else if a = "" then goClean b
  else if b = "" then goClean a
  else goClean ⟨a.data ++ '/' :: b.data⟩

/-- `strings.HasPrefix`. -/
def strStartsWith (s pre : String) : Bool := pre.data.isPrefixOf s.data

/-- `fileTransfer`: the per-connection upload state (`received` is a Go
`uint32`). -/
structure Transfer where
  name : String
  size : Nat
  received : Nat
  path : String
  deriving Repr, DecidableEq

inductive Frame where
  | stdin (data : List Nat)
  | fileStart (size : Nat) (name : String)
  | fileChunk (offset : Nat) (data : List Nat)
  deriving Repr, DecidableEq

/-- Effects of handling one inbound frame: the FILE_ACK sent (status,
message), the file-transfer slot afterwards, the bytes written to the PTY,
the file created, and the partial files removed from disk. -/
structure HandlerResult where
  ack : Option (Nat × String)
  transfer : Option Transfer
  ptyWrite : Option (List Nat)
  createdFile : Option String
  removedFiles : List String
  deriving Repr, DecidableEq

/-- The inbound-frame switch of `handleShellStream` for STDIN, FILE_START
and FILE_CHUNK, in the code's order of checks. -/
def handleFrame (isWriter : Bool) (cwd : String) (fileExists : String → Bool)
    (st : Option Transfer) (f : Frame) : HandlerResult :=
  match f with
  | Frame.stdin data =>
      if isWriter = false then
        { ack := none, transfer := st, ptyWrite := none,
          createdFile := none, removedFiles := [] }
      else
        { ack := none, transfer := st, ptyWrite := some data,
          createdFile := none, removedFiles := [] }
  | Frame.fileStart size name =>
      if isWriter = false then
        { ack := some (FileAckError, "viewer cannot upload files"), transfer := st,
          ptyWrite := none, createdFile := none, removedFiles := [] }
      else
        let removedPrev : List String := match st with
          | some t => [t.path]
          | none => []
        if size > MaxFileSize then
          { ack := some (FileAckError, "file too large (max 100MB)"), transfer := none,
            ptyWrite := none, createdFile := none, removedFiles := removedPrev }
        else if validateFilename name = false then
          { ack := some (FileAckError, "invalid filename"), transfer := none,
            ptyWrite := none, createdFile := none, removedFiles := removedPrev }
        else
          let cleanPath := goClean (goJoin cwd name)
          if strStartsWith cleanPath cwd = false then
            { ack := some (FileAckError, "invalid path"), transfer := none,
              ptyWrite := none, createdFile := none, removedFiles := removedPrev }
          else if fileExists cleanPath then
            { ack := some (FileAckError, "file already exists"), transfer := none,
              ptyWrite := none, createdFile := none, removedFiles := removedPrev }
          else
            { ack := some (FileAckProgress, ""),
              transfer := some ⟨name, size, 0, cleanPath⟩,
              ptyWrite := none, createdFile := some cleanPath,
              removedFiles := removedPrev }
  | Frame.fileChunk offset data =>
      if isWriter = false then
        { ack := some (FileAckError, "viewer cannot upload files"), transfer := st,
          ptyWrite := none, createdFile := none, removedFiles := [] }
      else
        match st with
        | none =>
            { ack := some (FileAckError, "no active transfer"), transfer := none,
              ptyWrite := none, createdFile := none, removedFiles := [] }
        | some t =>
            if offset ≠ t.received then
              { ack := some (FileAckError, "offset mismatch"), transfer := none,
                ptyWrite := none, createdFile := none, removedFiles := [t.path] }
            else
              let received2 := (t.received + data.length) % 2 ^ 32
              if received2 ≥ t.size then
                { ack := some (FileAckSuccess, t.name), transfer := none,
                  ptyWrite := none, createdFile := none, removedFiles := [] }
              else
                { ack := some (FileAckProgress, ""),
                  transfer := some { t with received := received2 },
                  ptyWrite := none, createdFile := none, removedFiles := [] }

/-- **C6.** Every FILE_START the handler accepts (a file is created and
FILE_ACK(PROGRESS) follows) resolved its destination as
`clean(join(sessionCwd, name))`, and that path begins with `sessionCwd`:
no accepted upload creates a file outside the session's working
directory, whatever the declared filename. -/
theorem c6_path_safety (cwd : String) (fe : String → Bool) (st : Option Transfer)
    (size : Nat) (name : String) (path : String)
    (hacc : (handleFrame true cwd fe st (Frame.fileStart size name)).createdFile
      = some path) :
    path = goClean (goJoin cwd name) ∧ strStartsWith path cwd = true := by
  simp only [handleFrame] at hacc
  rw [if_neg (by simp : ¬(true = false))] at hacc
  split at hacc
  · exact absurd hacc (by simp)
  split at hacc
  · exact absurd hacc (by simp)
  split at hacc
  · exact absurd hacc (by simp)
  split at hacc
  · exact absurd hacc (by simp)
  · rename_i hsw hex
    simp only [] at hacc
    have hpath : goClean (goJoin cwd name) = path := by
      exact Option.some_inj.mp hacc
    refine ⟨hpath.symm, ?_⟩
    rw [← hpath]
    cases hb : strStartsWith (goClean (goJoin cwd name)) cwd with
    | true => rfl
    | false => exact absurd hb hsw

/-- Witness for C6: uploading `hi.txt` into `/home/user` creates exactly
`/home/user/hi.txt`, inside the session cwd. -/
theorem c6_path_safety_witness :
    (handleFrame true "/home/user" (fun _ => false) none
        (Frame.fileStart 10 "hi.txt")).createdFile = some "/home/user/hi.txt" ∧
      ("/home/user/hi.txt" = goClean (goJoin "/home/user" "hi.txt") ∧
        strStartsWith "/home/user/hi.txt" "/home/user" = true) :=
  ⟨by decide,
    c6_path_safety "/home/user" (fun _ => false) none 10 "hi.txt" "/home/user/hi.txt"
      (by decide)⟩

/-- **C7.** During a transfer, a FILE_CHUNK whose offset differs from
bytes-received-so-far is answered with FILE_ACK(ERROR, "offset mismatch")
and aborts the transfer, removing the partial file; an accepted chunk
advances bytes-received by the chunk length and is answered with
FILE_ACK(PROGRESS), unless bytes-received reaches the declared size, in
which case the file is closed and FILE_ACK(SUCCESS, name) is sent; with no
transfer in flight the answer is FILE_ACK(ERROR, "no active transfer"). -/
theorem c7_chunk_protocol (cwd : String) (fe : String → Bool) (t : Transfer)
    (offset : Nat) (data : List Nat)
    (hfit : t.received + data.length < 2 ^ 32) :
    (offset ≠ t.received →
      handleFrame true cwd fe (some t) (Frame.fileChunk offset data)
        = { ack := some (FileAckError, "offset mismatch"), transfer := none,
            ptyWrite := none, createdFile := none, removedFiles := [t.path] }) ∧
    (offset = t.received →
      handleFrame true cwd fe (some t) (Frame.fileChunk offset data)
        = if t.received + data.length ≥ t.size then
            { ack := some (FileAckSuccess, t.name), transfer := none,
              ptyWrite := none, createdFile := none, removedFiles := [] }
          else
            { ack := some (FileAckProgress, ""),
              transfer := some { t with received := t.received + data.length },
              ptyWrite := none, createdFile := none, removedFiles := [] }) ∧
    handleFrame true cwd fe none (Frame.fileChunk offset data)
      = { ack := some (FileAckError, "no active transfer"), transfer := none,
          ptyWrite := none, createdFile := none, removedFiles := [] } := by
  have hmod : (t.received + data.length) % 2 ^ 32 = t.received + data.length :=
    Nat.mod_eq_of_lt hfit
  refine ⟨?_, ?_, ?_⟩
  · intro hne
    simp only [handleFrame]
    rw [if_neg (by simp : ¬(true = false)), if_pos hne]
  · intro heq
    simp only [handleFrame]
    rw [if_neg (by simp : ¬(true = false)),
      if_neg (by rw [heq]; exact fun h => h rfl), hmod]
  · simp only [handleFrame]
    rw [if_neg (by simp : ¬(true = false))]

/-- Witness for C7: a 10-byte transfer, one exact chunk of 10 bytes
completes with FILE_ACK(SUCCESS, "hi.txt"); a mismatched or orphan chunk
errors. -/
theorem c7_chunk_protocol_witness :
    (⟨"hi.txt", 10, 0, "/home/user/hi.txt"⟩ : Transfer).received
        + [1, 2, 3, 4, 5, 6, 7, 8, 9, 10].length < 2 ^ 32 ∧
    ((0 ≠ (⟨"hi.txt", 10, 0, "/home/user/hi.txt"⟩ : Transfer).received →
      handleFrame true "/home/user" (fun _ => false)
          (some ⟨"hi.txt", 10, 0, "/home/user/hi.txt"⟩)
          (Frame.fileChunk 0 [1, 2, 3, 4, 5, 6, 7, 8, 9, 10])
        = { ack := some (FileAckError, "offset mismatch"), transfer := none,
            ptyWrite := none, createdFile := none,
            removedFiles := [(⟨"hi.txt", 10, 0, "/home/user/hi.txt"⟩ : Transfer).path] }) ∧
    (0 = (⟨"hi.txt", 10, 0, "/home/user/hi.txt"⟩ : Transfer).received →
      handleFrame true "/home/user" (fun _ => false)
          (some ⟨"hi.txt", 10, 0, "/home/user/hi.txt"⟩)
          (Frame.fileChunk 0 [1, 2, 3, 4, 5, 6, 7, 8, 9, 10])
        = if (⟨"hi.txt", 10, 0, "/home/user/hi.txt"⟩ : Transfer).received
              + [1, 2, 3, 4, 5, 6, 7, 8, 9, 10].length
              ≥ (⟨"hi.txt", 10, 0, "/home/user/hi.txt"⟩ : Transfer).size then
            { ack := some (FileAckSuccess,
                (⟨"hi.txt", 10, 0, "/home/user/hi.txt"⟩ : Transfer).name),
              transfer := none,
              ptyWrite := none, createdFile := none, removedFiles := [] }
          else
            { ack := some (FileAckProgress, ""),
              transfer := some { (⟨"hi.txt", 10, 0, "/home/user/hi.txt"⟩ : Transfer) with
                received := (⟨"hi.txt", 10, 0, "/home/user/hi.txt"⟩ : Transfer).received
                  + [1, 2, 3, 4, 5, 6, 7, 8, 9, 10].length },
              ptyWrite := none, createdFile := none, removedFiles := [] }) ∧
    handleFrame true "/home/user" (fun _ => false) none
        (Frame.fileChunk 0 [1, 2, 3, 4, 5, 6, 7, 8, 9, 10])
      = { ack := some (FileAckError, "no active transfer"), transfer := none,
          ptyWrite := none, createdFile := none, removedFiles := [] }) :=
  ⟨by decide,
    c7_chunk_protocol "/home/user" (fun _ => false)
      ⟨"hi.txt", 10, 0, "/home/user/hi.txt"⟩ 0 [1, 2, 3, 4, 5, 6, 7, 8, 9, 10]
      (by decide)⟩

/-- **C8.** On a connection that is not the writer, STDIN is discarded
without reaching the PTY, and FILE_START / FILE_CHUNK are answered with
FILE_ACK(ERROR, "viewer cannot upload files") without touching the
transfer slot, creating a file, or removing one: nothing a viewer sends
reaches the PTY or the disk. -/
theorem c8_viewer_gating (cwd : String) (fe : String → Bool) (st : Option Transfer)
    (f : Frame) :
    (handleFrame false cwd fe st f).ptyWrite = none ∧
    (handleFrame false cwd fe st f).createdFile = none ∧
    (handleFrame false cwd fe st f).removedFiles = [] ∧
    (handleFrame false cwd fe st f).transfer = st ∧
    (handleFrame false cwd fe st f).ack
      = match f with
        | Frame.stdin _ => none
        | Frame.fileStart _ _ => some (FileAckError, "viewer cannot upload files")
        | Frame.fileChunk _ _ => some (FileAckError, "viewer cannot upload files") := by
  cases f <;> simp [handleFrame]

/-! ## Session id generation (`generateID`)

Both session files define
`generateID() = fmt.Sprintf("sess-%d", time.Now().UnixNano())`: the id is
a pure function of the wall-clock nanosecond reading, with no counter,
uniqueness check or randomness.
-/

/-- `generateID`, as a function of the `time.Now().UnixNano()` reading it
formats. -/
def generateID (unixNano : Int) : String :=
  "sess-" ++ toString unixNano

/-- **C9 (code bug).** The id depends only on the clock reading: two
`Create` invocations that observe the same `UnixNano` value (possible for
concurrent creations, or after the wall clock steps backwards) receive the
same id, so id assignment is not injective across invocations and the
claimed process-wide uniqueness fails. -/
theorem c9_generateID_collision :
    generateID 1700000000000000000 = generateID 1700000000000000000 ∧
      ¬Function.Injective (fun call : Nat × Int => generateID call.2) := by
  refine ⟨rfl, ?_⟩
  intro h
  have h2 : ((0 : Nat), (1700000000000000000 : Int)) = (1, 1700000000000000000) :=
    h rfl
  exact absurd h2 (by decide)
